import Mathlib

/-!
The server `wordsrv`, a turn-based word-guessing game: a shallow embedding of
`src/wordsrv.c`.

* A linked list of `struct client` is a `List Client`, in list order.
* A `struct client *` is the address of the node it points to (`Client.addr`);
  `NULL` is `none`.  Dereferencing a pointer looks the address up among the
  live nodes; a pointer that is `NULL` or that refers to a freed node has no
  defined value, and a function that dereferences one returns `none`.
* `write` and `dprintf` are recorded in an output log, in order, together with
  whether they succeeded.  Which descriptors fail is an input (`World.wfail`).
* `read` is an input: the bytes the call delivered.
* `printf` and `fprintf(stderr, ...)` (the server console) are not modelled, nor
  are `allset`, `close` and `select`.
* A `char` is compared through its code: `'a'` is 97 and `'z'` is 122.
* Messages are lists of characters of any length; the fixed sizes of the
  buffers that `sprintf` fills are not modelled.

The headers `socket.h` and `gameplay.h` are not part of the sources: their
constants are fields of `Config`, and `init_game` and `status_message` are
modelled from the specification.
-/

namespace Wordsrv

/-- The string end marker of C. -/
def NUL : Char := Char.ofNat 0

/-- The carriage return. -/
def CR : Char := Char.ofNat 13

/-- The line feed. -/
def LF : Char := Char.ofNat 10

/-- The line terminator of the protocol. -/
def CRLF : List Char := [CR, LF]

/-- One `struct client`: `addr` is the address of the node, `inbuf` the bytes of
the input buffer and `in_ptr` the offset of the cursor from the buffer start.
The `next` field is the position in the list that holds the node. -/
structure Client where
  addr : Nat
  fd : Nat
  name : List Char
  inbuf : List Char
  in_ptr : Nat
deriving DecidableEq, Repr

/-- The `struct game_state`: `has_next_turn` is a pointer into `head`. -/
structure GameState where
  word : List Char
  guess : List Char
  letters_guessed : List Nat
  guesses_left : Int
  head : List Client
  has_next_turn : Option Nat
deriving DecidableEq, Repr

/-- One `write` or `dprintf` to a descriptor and whether it succeeded. -/
structure Sent where
  fd : Nat
  msg : List Char
  ok : Bool
deriving DecidableEq, Repr

/-- The variables of `main` that persist from one readiness cycle to the next,
and the log of everything written to the clients. -/
structure Server where
  game : GameState
  new_players : List Client
  out : List Sent
deriving DecidableEq, Repr

/-- The constants of the missing headers, and the status line of the missing
`status_message`, which the server only passes on to `broadcast`. -/
structure Config where
  MAX_BUF : Nat
  MAX_NAME : Nat
  MAX_GUESSES : Int
  NUM_LETTERS : Nat
  placeholder : Char
  WELCOME_MSG : List Char
  status_message : GameState → List Char

/-- What the outside world does during one readiness event: `wfail fd` says that
writes to `fd` fail, `stray` is the byte stored just before `inbuf` (the source
reads it when the first read of a line delivers one byte), and `next_word` is
the word the dictionary hands to the next `init_game`. -/
structure World where
  wfail : Nat → Bool
  stray : Char
  next_word : List Char

/-! ## The line assembler -/

/-- The bytes of a buffer after `data` is stored at offset `off`. -/
def store (buf : List Char) (off : Nat) (data : List Char) : List Char :=
  buf.take off ++ data ++ buf.drop (off + data.length)

/-- The byte at offset `i` from the buffer start; offset `-1` is the byte
before the buffer. -/
def peek (stray : Char) (buf : List Char) (i : Int) : Char :=
  if i < 0 then stray else buf.getD i.toNat NUL

/-- The buffer after the byte `c` is stored at offset `i` from the buffer start: a
store at offset `-1` falls on the byte before the buffer and leaves the buffer
as it is. -/
def poke (buf : List Char) (i : Int) (c : Char) : List Char :=
  if i < 0 then buf else buf.set i.toNat c

/-- The bytes `strncpy(dst, src, n)` writes to `dst`: the bytes of `src` before
its first string end marker, at most `n` of them, padded with end markers to
`n` bytes. -/
def strncpy (src : List Char) (n : Nat) : List Char :=
  let s := (src.takeWhile (fun c => c != NUL)).take n
  s ++ List.replicate (n - s.length) NUL

/-- The C string stored in a buffer: the bytes before the first end marker, or
nothing defined when the buffer holds no end marker. -/
def cstr (buf : List Char) : Option (List Char) :=
  if NUL ∈ buf then some (buf.takeWhile (fun c => c != NUL)) else none

/-- The outcome of `read_partial_input_from_client`: the value returned, the
client afterwards, and the bytes written to `result` if any were. -/
structure ReadOut where
  res : Int
  client : Client
  result : Option (List Char)
deriving DecidableEq, Repr

/-- The function `read_partial_input_from_client`, where `data` is what
`read(clientfd, p->in_ptr, MAX_BUF)` delivered (no bytes: the peer closed).  A
read of more than `MAX_BUF` bytes cannot happen, and one that stores bytes past
the end of `inbuf` has no defined result.  A failing `read` is not modelled.
The offsets `read_num - 2` and `read_num - 1` from the cursor are integers:
after a read of one byte at the buffer start the first is `-1`, the byte before
the buffer, for the test and for the end marker alike. -/
def read_partial_input_from_client (cfg : Config) (stray : Char) (p : Client)
    (data : List Char) : Option ReadOut :=
  let read_num := data.length
  if cfg.MAX_BUF < read_num then none
  else if cfg.MAX_BUF < p.in_ptr + read_num then none
  else if read_num = 0 then some ⟨-1, p, none⟩
  else
    let buf := store p.inbuf p.in_ptr data
    if buf.getD 0 NUL = CR ∧ buf.getD 1 NUL = LF then
      some ⟨0, { p with inbuf := buf, in_ptr := 0 }, none⟩
    else if peek stray buf ((p.in_ptr : Int) + read_num - 2) = CR
        ∧ peek stray buf ((p.in_ptr : Int) + read_num - 1) = LF then
      let buf1 := poke buf ((p.in_ptr : Int) + read_num - 2) NUL
      some ⟨1, { p with inbuf := buf1, in_ptr := 0 }, some (strncpy buf1 cfg.MAX_NAME)⟩
    else
      some ⟨2, { p with inbuf := buf, in_ptr := p.in_ptr + read_num }, none⟩

/-! ## The connection registry -/

/-- The function `add_player`: a new node at the head of the list, with an empty
name and the cursor at the buffer start.  `mem` is what `malloc` left in the
buffer; only its first byte is initialised. -/
def add_player (cfg : Config) (top : List Client) (addr fd : Nat) (mem : List Char) :
    List Client :=
  { addr := addr, fd := fd, name := [],
    inbuf := ((mem ++ List.replicate cfg.MAX_BUF NUL).take cfg.MAX_BUF).set 0 NUL,
    in_ptr := 0 } :: top

/-- The function `remove_player`: unlinks and frees the first node whose
descriptor is `fd`; the list is unchanged when there is none. -/
def remove_player : List Client → Nat → List Client
  | [], _ => []
  | c :: rest, fd => if c.fd = fd then rest else c :: remove_player rest fd

/-- The function `remove_from_newplayers`: unlinks the first node whose
descriptor is `fd` without freeing it. -/
def remove_from_newplayers : List Client → Nat → List Client
  | [], _ => []
  | c :: rest, fd => if c.fd = fd then rest else c :: remove_from_newplayers rest fd

/-- The node a pointer refers to, when that node is live in the list. -/
def deref (l : List Client) (a : Nat) : Option Client :=
  l.find? (fun c => c.addr = a)

/-- The list after the node at the address of `p` is overwritten in place. -/
def update_client (l : List Client) (p : Client) : List Client :=
  l.map (fun c => if c.addr = p.addr then p else c)

/-- The `next` field of the node at address `a`: `none` when no live node of the
list has that address, `some none` when the node is the last one. -/
def next_of (a : Nat) : List Client → Option (Option Client)
  | [] => none
  | c :: rest => if c.addr = a then some rest.head? else next_of a rest

/-! ## Broadcast and announcements -/

/-- The function `broadcast`: the writes it performs, in order.  `special` is the
descriptor of `special_player`, or `none` for `NULL`.  The game state is passed
by value and nothing is returned, so the caller's state is as before. -/
def broadcast (w : World) (game : GameState) (outbuf : List Char) (special : Option Nat) :
    List Sent :=
  let rec go : List Client → List Sent
    | [] => []
    | temp :: rest =>
      if special = some temp.fd then go rest
      else ⟨temp.fd, outbuf, !w.wfail temp.fd⟩ :: go rest
  go game.head

/-- The function `send_msg_to_client` for a live `player` (`none` is `NULL`): the
list afterwards and the write performed. -/
def send_msg_to_client (w : World) (player : Option Client) (msg : List Char)
    (list : List Client) : List Client × List Sent :=
  match player with
  | none => (list, [])
  | some pl =>
    if w.wfail pl.fd then (remove_player list pl.fd, [⟨pl.fd, msg, false⟩])
    else (list, [⟨pl.fd, msg, true⟩])

/-- The function `check_dup_name`. -/
def check_dup_name (game : GameState) (name : List Char) : Int :=
  let rec go : List Client → Int
    | [] => 0
    | tmp :: rest => if tmp.name = name then 1 else go rest
  go game.head

/-- The function `advance_turn`.  It reads `game->has_next_turn->next`, so it has
no defined result when the turn reference is `NULL` or refers to a freed node. -/
def advance_turn (game : GameState) : Option GameState :=
  match game.has_next_turn with
  | none => none
  | some a =>
    match next_of a game.head with
    | none => none
    | some none => some { game with has_next_turn := game.head.head?.map (fun c => c.addr) }
    | some (some next) => some { game with has_next_turn := some next.addr }

/-- The function `announce_guess_and_turn`: the writes it performs.  After the
prompt it reads `game.has_next_turn->name`, so it has no defined result when the
turn reference is `NULL` or dangling, or when the prompt fails (the turn-holder
is then freed before its name is read). -/
def announce_guess_and_turn (w : World) (game : GameState) : Option (List Sent) :=
  match game.has_next_turn with
  | none => none
  | some a =>
    match deref game.head a with
    | none => none
    | some t =>
      if w.wfail t.fd then none
      else some (⟨t.fd, "Your guess?\r\n".toList, true⟩ ::
        broadcast w game ("It's ".toList ++ t.name ++ "'s turn.\r\n".toList) (some t.fd))

/-! ## The round -/

/-- The function `check_exist`: the first index of `letter` in `word`, or `-1`. -/
def check_exist (letter : Char) (word : List Char) : Int :=
  let rec go : List Char → Nat → Int
    | [], _ => -1
    | c :: rest, i => if letter = c then (i : Int) else go rest (i + 1)
  go word 0

/-- The function `generate_guess`: every position of the reveal buffer where the
word holds `c` is set to `c`. -/
def generate_guess (word guess : List Char) (c : Char) : List Char :=
  let rec go : List Char → Nat → List Char → List Char
    | [], _, g => g
    | x :: rest, i, g => go rest (i + 1) (if x = c then g.set i c else g)
  go word 0 guess

/-- Modelled from the spec: `init_game` of the missing `gameplay.c` ("resets
reveal buffer to all-placeholder, clears the guessed table, sets
remaining-guess counter to a fixed budget"), with the word the dictionary
selects.  The active group and the turn reference are left as they are. -/
def init_game (cfg : Config) (w : World) (game : GameState) : GameState :=
  { game with
    word := w.next_word
    guess := List.replicate w.next_word.length cfg.placeholder
    letters_guessed := List.replicate cfg.NUM_LETTERS 0
    guesses_left := cfg.MAX_GUESSES }

/-- The function `one_turn`: the status line, broadcast to everyone. -/
def one_turn (cfg : Config) (w : World) (game : GameState) : List Sent :=
  broadcast w game (cfg.status_message game) none

/-- The function `new_game`: the game afterwards and the writes performed. -/
def new_game (cfg : Config) (w : World) (game : GameState) : Option (GameState × List Sent) :=
  let g := init_game cfg w game
  match announce_guess_and_turn w g with
  | none => none
  | some o =>
    some (g, broadcast w g "Let's start a new game\r\n".toList none ++ one_turn cfg w g ++ o)

/-! ## The event dispatcher: the body of `main` -/

/-- The branches of lines 293 to 322 of `main`, in the order the source tests
them. -/
inductive Outcome where
  | win
  | exhausted
  | continue
deriving DecidableEq, Repr

/-- The tests of lines 293 and 307: `strcmp(game.word, game.guess) == 0` first,
then `game.guesses_left == 0`. -/
def round_outcome (game : GameState) : Outcome :=
  if game.word = game.guess then Outcome.win
  else if game.guesses_left = 0 then Outcome.exhausted
  else Outcome.continue

/-- Lines 267 to 290 of `main`: the turn-holder `p` guesses the letter `c`, which
has not been guessed before.  Returns the game afterwards and the writes
performed.  When the write of the "not in the word" notice fails, `p` is freed
and then read again, so nothing is defined. -/
def guess_letter (cfg : Config) (w : World) (game : GameState) (p : Client) (c : Char) :
    Option (GameState × List Sent) :=
  let letter_pos := c.toNat - 97
  let g1 := { game with letters_guessed := game.letters_guessed.set letter_pos 1 }
  let absent : Option (GameState × List Sent) :=
    if check_exist c g1.word = -1 then
      let r := send_msg_to_client w (some p) (c :: " is not in the word\r\n".toList) g1.head
      if w.wfail p.fd then none
      else
        match advance_turn { g1 with head := r.1 } with
        | none => none
        | some g => some (g, r.2)
    else some (g1, [])
  match absent with
  | none => none
  | some (g2, o1) =>
    let g3 := { g2 with guesses_left := g2.guesses_left - 1 }
    let o2 := broadcast w g3 (p.name ++ " guesses: ".toList ++ c :: "\r\n".toList) none
    let g4 := { g3 with guess := generate_guess g3.word g3.guess c }
    some (g4, o1 ++ o2 ++ one_turn cfg w g4)

/-- Lines 293 to 322 of `main`: the round is resolved after the guess of `p`. -/
def resolve_round (cfg : Config) (w : World) (game : GameState) (p : Client) :
    Option (GameState × List Sent) :=
  match round_outcome game with
  | Outcome.win =>
    let r := send_msg_to_client w (some p) "Game over! You win!\r\n\r\n".toList game.head
    if w.wfail p.fd then none
    else
      let g := { game with head := r.1 }
      let o := broadcast w g ("Game over! ".toList ++ p.name ++ " won!\r\n\r\n".toList)
        (some p.fd)
      match new_game cfg w g with
      | none => none
      | some (g1, o1) => some (g1, r.2 ++ o ++ o1)
  | Outcome.exhausted =>
    let o := broadcast w game "No guesses left. Game over.\r\n\r\n".toList none
    match new_game cfg w game with
    | none => none
    | some (g1, o1) => some (g1, o ++ o1)
  | Outcome.continue =>
    match announce_guess_and_turn w game with
    | none => none
    | some o => some (game, o)

/-- Lines 231 to 328 of `main`: input of the turn-holder `p`, after
`read_partial_input_from_client` returned `res` and wrote the bytes `guess`.  The
guess is read as a C string, so nothing is defined when those bytes hold no end
marker. -/
def turn_holder_input (cfg : Config) (w : World) (s : Server) (p : Client) (res : Int)
    (guess : Option (List Char)) : Option Server :=
  if res = -1 then
    match advance_turn s.game with
    | none => none
    | some g =>
      let g1 := { g with head := remove_player g.head p.fd }
      if g1.head = [] then some { s with game := g1 }
      else
        let o := broadcast w g1 ("Goodbye ".toList ++ p.name ++ "\r\n".toList) none
        match announce_guess_and_turn w g1 with
        | none => none
        | some o1 => some { s with game := g1, out := s.out ++ o ++ o1 }
  else if res = 0 then
    let r := send_msg_to_client w (some p) "Invalid guess. Your guess?\r\n".toList s.game.head
    some { s with game := { s.game with head := r.1 }, out := s.out ++ r.2 }
  else if res = 1 then
    match guess.bind cstr with
    | none => none
    | some line =>
      if line.length ≠ 1 ∨ (line.headD NUL).toNat < 97 ∨ 122 < (line.headD NUL).toNat then
        let r := send_msg_to_client w (some p) "Invalid guess. Your guess?\r\n".toList
          s.game.head
        some { s with game := { s.game with head := r.1 }, out := s.out ++ r.2 }
      else
        let c := line.headD NUL
        if s.game.letters_guessed.getD (c.toNat - 97) 0 = 1 then
          let r := send_msg_to_client w (some p)
            "Already guessed. Your guess again?\r\n".toList s.game.head
          some { s with game := { s.game with head := r.1 }, out := s.out ++ r.2 }
        else
          match guess_letter cfg w s.game p c with
          | none => none
          | some (g, o) =>
            match resolve_round cfg w g p with
            | none => none
            | some (g1, o1) => some { s with game := g1, out := s.out ++ o ++ o1 }
  else some s

/-- Lines 202 to 229 of `main`: input of an active client `p` that does not hold
the turn, after `read_partial_input_from_client` returned `res`. -/
def other_active_input (w : World) (s : Server) (p : Client) (res : Int) : Option Server :=
  if res = 1 then
    let r := send_msg_to_client w (some p) "It is not your turn.\r\n".toList s.game.head
    some { s with game := { s.game with head := r.1 }, out := s.out ++ r.2 }
  else if res = -1 then
    let g1 := { s.game with head := remove_player s.game.head p.fd }
    if g1.head = [] then some { s with game := g1 }
    else
      let o := broadcast w g1 ("Goodbye ".toList ++ p.name ++ "\r\n".toList) none
      match announce_guess_and_turn w g1 with
      | none => none
      | some o1 => some { s with game := g1, out := s.out ++ o ++ o1 }
  else some s

/-- The greeting of lines 353 to 357 and 366 to 371: on a failed write the
pending client is removed. -/
def greet_again (cfg : Config) (w : World) (s : Server) (p : Client) : Server :=
  if w.wfail p.fd then
    { s with new_players := remove_player s.new_players p.fd,
             out := s.out ++ [⟨p.fd, cfg.WELCOME_MSG, false⟩] }
  else { s with out := s.out ++ [⟨p.fd, cfg.WELCOME_MSG, true⟩] }

/-- Lines 334 to 402 of `main`: input of the pending client `p`, after
`read_partial_input_from_client` returned `res` and wrote `name`.  `later` are
the nodes that follow `p` in the pending list.  After a duplicate name the loop
goes on to `p->next`: nothing is defined when `p` was just freed, or when a
later node with the same descriptor would be read a second time. -/
def pending_input (cfg : Config) (w : World) (s : Server) (p : Client) (later : List Client)
    (res : Int) (name : Option (List Char)) : Option Server :=
  if res = -1 then some { s with new_players := remove_player s.new_players p.fd }
  else if res = 0 then some (greet_again cfg w s p)
  else if res = 1 then
    match name.bind cstr with
    | none => none
    | some nm =>
      if check_dup_name s.game nm ≠ 0 then
        let p1 := { p with in_ptr := 0 }
        let s1 := { s with new_players := update_client s.new_players p1 }
        if w.wfail p.fd then none
        else if later.any (fun c => c.fd = p.fd) then none
        else some (greet_again cfg w s1 p1)
      else
        let p1 := { p with name := nm }
        let pend := remove_from_newplayers s.new_players p.fd
        let turn :=
          if s.game.has_next_turn = none ∧ s.game.head = [] then some p1.addr
          else s.game.has_next_turn
        let g := { s.game with head := p1 :: s.game.head, has_next_turn := turn }
        let o := broadcast w g (nm ++ " has just joined\r\n".toList) none
        match announce_guess_and_turn w g with
        | none => none
        | some o1 =>
          some { game := g, new_players := pend, out := s.out ++ o ++ one_turn cfg w g ++ o1 }
  else some s

/-- Lines 165 to 180 of `main`: a connection is accepted; `addr` is the address
`malloc` returns and `mem` what it left in the buffer.  When the greeting fails
the source removes `p->fd`, where `p` has not been assigned in this cycle, so
nothing is defined. -/
def accept_client (cfg : Config) (w : World) (s : Server) (addr fd : Nat) (mem : List Char) :
    Option Server :=
  let pend := add_player cfg s.new_players addr fd mem
  if w.wfail fd then none
  else some { s with new_players := pend, out := s.out ++ [⟨fd, cfg.WELCOME_MSG, true⟩] }

/-- The nodes that follow the first node with descriptor `fd`. -/
def after_fd (fd : Nat) : List Client → List Client
  | [] => []
  | c :: rest => if c.fd = fd then rest else after_fd fd rest

/-- Lines 191 to 404 of `main` for one ready descriptor `cur_fd` other than the
listening one: `data` is what the read delivers.  The active group is searched
first, then the pending group.  A descriptor held by a node of each group would
be read twice, which is not covered. -/
def ready_client (cfg : Config) (w : World) (s : Server) (cur_fd : Nat) (data : List Char) :
    Option Server :=
  match s.game.head.find? (fun c => c.fd = cur_fd) with
  | some p =>
    if s.new_players.any (fun c => c.fd = cur_fd) then none
    else
      match s.game.has_next_turn with
      | none => none
      | some a =>
        match deref s.game.head a with
        | none => none
        | some t =>
          match read_partial_input_from_client cfg w.stray p data with
          | none => none
          | some r =>
            let s1 := { s with game := { s.game with head := update_client s.game.head r.client } }
            if cur_fd ≠ t.fd then other_active_input w s1 r.client r.res
            else turn_holder_input cfg w s1 r.client r.res r.result
  | none =>
    match s.new_players.find? (fun c => c.fd = cur_fd) with
    | some p =>
      match read_partial_input_from_client cfg w.stray p data with
      | none => none
      | some r =>
        let s1 := { s with new_players := update_client s.new_players r.client }
        pending_input cfg w s1 r.client (after_fd cur_fd s.new_players) r.res r.result
    | none => some s

/-- One readiness event. -/
inductive Event where
  | accept (addr fd : Nat) (mem : List Char)
  | ready (fd : Nat) (data : List Char)

/-- One event is handled. -/
def step (cfg : Config) (s : Server) (e : World × Event) : Option Server :=
  match e.2 with
  | Event.accept addr fd mem => accept_client cfg e.1 s addr fd mem
  | Event.ready fd data => ready_client cfg e.1 s fd data

/-- A sequence of events is handled, one after the other. -/
def run (cfg : Config) : Server → List (World × Event) → Option Server
  | s, [] => some s
  | s, e :: rest =>
    match step cfg s e with
    | none => none
    | some s1 => run cfg s1 rest

/-- The state of `main` before the first cycle: `game.head`, `game.has_next_turn`
and `new_players` are `NULL`, and the round is the one `init_game` set up. -/
def initial (cfg : Config) (w : World) : Server :=
  { game := init_game cfg w
      { word := [], guess := [], letters_guessed := [], guesses_left := 0, head := [],
        has_next_turn := none },
    new_players := [], out := [] }

/-- One call of `read_partial_input_from_client` per chunk, on the same client:
the outcomes of the calls, in order. -/
def read_chunks (cfg : Config) (stray : Char) : Client → List (List Char) → Option (List ReadOut)
  | _, [] => some []
  | p, chunk :: rest =>
    match read_partial_input_from_client cfg stray p chunk with
    | none => none
    | some r =>
      match read_chunks cfg stray r.client rest with
      | none => none
      | some rs => some (r :: rs)

/-! ## Concrete values for the examples

The headers are not available, so the concrete examples fix one choice of the
constants; the general theorems hold for every `Config`. -/

/-- A configuration with the buffer sizes 256 and 30, a budget of 4 guesses, the
placeholder `-` and a status line made of the reveal buffer. -/
def sample_config : Config :=
  { MAX_BUF := 256, MAX_NAME := 30, MAX_GUESSES := 4, NUM_LETTERS := 26,
    placeholder := Char.ofNat 45,
    WELCOME_MSG := "Welcome! What's your name?\r\n".toList,
    status_message := fun g => g.guess ++ "\r\n".toList }

/-- A world in which no write fails and the dictionary hands out "cat". -/
def calm : World := { wfail := fun _ => false, stray := NUL, next_word := "cat".toList }

/-- A world in which every write to descriptor `fd` fails. -/
def broken (fd : Nat) : World :=
  { wfail := fun x => decide (x = fd), stray := NUL, next_word := "cat".toList }

/-- A client with the given name, whose input buffer holds 256 end markers and
whose cursor is at the buffer start. -/
def player (addr fd : Nat) (name : String) : Client :=
  { addr := addr, fd := fd, name := name.toList, inbuf := List.replicate 256 NUL, in_ptr := 0 }

/-! ## Notions the claims are stated with -/

/-- The turn invariant of the specification: the active group is empty and the
turn reference is unset, or the turn reference refers to a member of the active
group. -/
def TurnInvariant (game : GameState) : Prop :=
  (game.head = [] ∧ game.has_next_turn = none)
    ∨ ∃ a, game.has_next_turn = some a ∧ ∃ c ∈ game.head, c.addr = a

/-- A client connects, joins as "ann" and becomes the turn-holder, then closes
its connection. -/
def last_holder_leaves : List (World × Event) :=
  [(calm, Event.accept 1000 4 []), (calm, Event.ready 4 "ann\r\n".toList),
   (calm, Event.ready 4 [])]

/-- The session that follows `p` in the cyclic order of the list
`pre ++ p :: post`: the first of `post`, else the head of the list, which is `p`
itself when `p` is alone. -/
def successor (pre post : List Client) (p : Client) : Client :=
  (post ++ pre).headD p

/-- A game with an empty active group and the turn reference unset. -/
def empty_game : GameState :=
  { word := "cat".toList, guess := "---".toList, letters_guessed := List.replicate 26 0,
    guesses_left := 4, head := [], has_next_turn := none }

/-- The round of "cat" with the active group `head` and the turn reference
`turn`. -/
def cat_game (head : List Client) (turn : Option Nat) : GameState :=
  { empty_game with head := head, has_next_turn := turn }

/-- The session "ann", at address 1000 on descriptor 4. -/
def ann : Client := player 1000 4 "ann"

/-- The session "bob", at address 1001 on descriptor 5. -/
def bob : Client := player 1001 5 "bob"

/-- The session "cyd", at address 1002 on descriptor 6. -/
def cyd : Client := player 1002 6 "cyd"

/-- One write of `msg` to every session of `l`, in list order. -/
def to_all (w : World) (l : List Client) (msg : List Char) : List Sent :=
  l.map (fun c => (⟨c.fd, msg, !w.wfail c.fd⟩ : Sent))

/-- The turn announcement for the turn-holder `q` in the group `l`: the prompt to
`q`, delivered, then the notice naming `q` to every other session of `l`. -/
def announcement (w : World) (l : List Client) (q : Client) : List Sent :=
  ⟨q.fd, "Your guess?\r\n".toList, true⟩ ::
    to_all w (l.filter (fun c => decide (c ≠ q)))
      ("It's ".toList ++ q.name ++ "'s turn.\r\n".toList)

/-- A server whose active group is `head`, with the turn reference `turn`, in the
round of "cat"; nobody is pending and nothing has been written. -/
def cat_server (head : List Client) (turn : Option Nat) : Server :=
  { game := cat_game head turn, new_players := [], out := [] }

/-- The letter `x` is marked guessed: it is a lowercase letter and its entry of
the guessed table is 1. -/
def marked (game : GameState) (x : Char) : Bool :=
  decide (97 ≤ x.toNat ∧ x.toNat ≤ 122 ∧ game.letters_guessed.getD (x.toNat - 97) 0 = 1)

/-- The reveal buffer is in lock-step with the guessed table: it has the length
of the word and holds, at every position, the letter of the word when that
letter is marked guessed and the placeholder otherwise. -/
def LockStep (cfg : Config) (game : GameState) : Prop :=
  game.guess.length = game.word.length
    ∧ ∀ i, i < game.word.length →
        game.guess.getD i NUL
          = if marked game (game.word.getD i NUL) then game.word.getD i NUL
            else cfg.placeholder

/-- A freshly initialised round: the reveal buffer is all placeholder and no
letter is marked in the table of `NUM_LETTERS` entries. -/
def Fresh (cfg : Config) (game : GameState) : Prop :=
  game.guess = List.replicate game.word.length cfg.placeholder
    ∧ game.letters_guessed = List.replicate cfg.NUM_LETTERS 0

/-- A sequence of complete lines handled as guesses: each entry gives the world
during the event, the session that sends the line as the turn-holder, and the
bytes `read_partial_input_from_client` wrote to `guess`. -/
def guesses (cfg : Config) : Server → List (World × Client × List Char) → Option Server
  | s, [] => some s
  | s, e :: rest =>
    match turn_holder_input cfg e.1 s e.2.1 1 (some e.2.2) with
    | none => none
    | some s1 => guesses cfg s1 rest

/-- Three guesses in the round of "cat": ann guesses `c`, then `z`, which passes
the turn to bob, who guesses `a`. -/
def sample_guesses : List (World × Client × List Char) :=
  [(calm, ann, strncpy "c".toList 30), (calm, ann, strncpy "z".toList 30),
   (calm, bob, strncpy "a".toList 30)]

/-- The session that holds the turn after the turn-holder `p` of the group
`pre ++ p :: post` guesses the new letter `c`: `p` again when the word holds
`c`, the cyclic successor of `p` when it does not. -/
def next_holder (word : List Char) (pre post : List Client) (p : Client) (c : Char) : Client :=
  if c ∈ word then p else successor pre post p

/-- The game right after the turn-holder `p` guesses the new letter `c`, before
the round is resolved: the letter is marked, the reveal buffer shows it, the
counter is one lower and the turn is with `next_holder`. -/
def after_guess (game : GameState) (pre post : List Client) (p : Client) (c : Char) :
    GameState :=
  { game with
    letters_guessed := game.letters_guessed.set (c.toNat - 97) 1
    guesses_left := game.guesses_left - 1
    guess := generate_guess game.word game.guess c
    has_next_turn := some (next_holder game.word pre post p c).addr }

/-- The writes of the guess itself: the notice to the guesser when the letter is
absent, then the guess and the status line to everyone. -/
def guess_writes (cfg : Config) (w : World) (game : GameState) (pre post : List Client)
    (p : Client) (c : Char) : List Sent :=
  (if c ∈ game.word then [] else [⟨p.fd, c :: " is not in the word\r\n".toList, true⟩])
    ++ to_all w game.head (p.name ++ " guesses: ".toList ++ c :: "\r\n".toList)
    ++ to_all w game.head (cfg.status_message (after_guess game pre post p c))

/-- The writes that start and announce a new round for the group of `game`, with
the turn-holder `q`: the notice, the status line of the new round, and the turn
announcement. -/
def round_start_writes (cfg : Config) (w : World) (game : GameState) (q : Client) :
    List Sent :=
  to_all w game.head "Let's start a new game\r\n".toList
    ++ to_all w game.head (cfg.status_message (init_game cfg w game))
    ++ announcement w game.head q

/-- The text broadcast when the guesses are exhausted. -/
def no_left : List Char := "No guesses left. Game over.\r\n\r\n".toList

/-- The writes of a win by `p`, with the turn on `q`: the result to `p`, the
result naming `p` to every other session, then the start of the new round. -/
def win_writes (cfg : Config) (w : World) (game : GameState) (p q : Client) : List Sent :=
  ⟨p.fd, "Game over! You win!\r\n\r\n".toList, true⟩ ::
    to_all w (game.head.filter (fun c => decide (c ≠ p)))
      ("Game over! ".toList ++ p.name ++ " won!\r\n\r\n".toList)
    ++ round_start_writes cfg w game q

/-- The game and the writes after the round of `game` is resolved, `p` being the
guesser and `q` the turn-holder. -/
def resolution (cfg : Config) (w : World) (game : GameState) (p q : Client) :
    GameState × List Sent :=
  match round_outcome game with
  | Outcome.win => (init_game cfg w game, win_writes cfg w game p q)
  | Outcome.exhausted =>
    (init_game cfg w game, to_all w game.head no_left ++ round_start_writes cfg w game q)
  | Outcome.continue => (game, announcement w game.head q)

/-- The round of "cat" with one guess left, ann holding the turn and bob the other
active session. -/
def last_chance : Server :=
  { game := { cat_game [bob, ann] (some 1000) with guesses_left := 1 },
    new_players := [], out := [] }

/-- A pending session at address 2000 on descriptor 7, with an empty name. -/
def newcomer : Client := player 2000 7 ""

/-- The offset just past the last byte that the call
`read(clientfd, p->in_ptr, MAX_BUF)` of line 470 may store: the cursor plus the
`MAX_BUF` bytes it requests from the transport, wherever the cursor is. -/
def requested_end (cfg : Config) (p : Client) : Nat :=
  p.in_ptr + cfg.MAX_BUF

/-! ## Shared lemmas -/

/-- The loop of `broadcast` writes once to every node whose descriptor is not
the excluded one, in list order. -/
theorem broadcast_go_eq (w : World) (outbuf : List Char) (special : Option Nat)
    (l : List Client) :
    broadcast.go w outbuf special l
      = (l.filter (fun c => decide (special ≠ some c.fd))).map
          (fun c => (⟨c.fd, outbuf, !w.wfail c.fd⟩ : Sent)) := by
  induction l with
  | nil => rfl
  | cons c l ih =>
    by_cases h : special = some c.fd
    · subst h
      rw [broadcast.go, if_pos rfl, ih]
      simp
    · simp [broadcast.go, h, ih]

/-- A broadcast without exclusion writes to every node. -/
theorem broadcast_all (w : World) (game : GameState) (outbuf : List Char) :
    broadcast w game outbuf none
      = game.head.map (fun c => (⟨c.fd, outbuf, !w.wfail c.fd⟩ : Sent)) := by
  simp [broadcast, broadcast_go_eq]

/-- The `next` field of a node of a list without repeated addresses. -/
theorem next_of_split (pre post : List Client) (p : Client)
    (hnd : ((pre ++ p :: post).map (fun c => c.addr)).Nodup) :
    next_of p.addr (pre ++ p :: post) = some post.head? := by
  induction pre with
  | nil => simp [next_of]
  | cons c pre ih =>
    simp only [List.cons_append, List.map_cons, List.nodup_cons] at hnd
    have hc : c.addr ≠ p.addr := fun h => hnd.1 (by simp [h])
    simp [next_of, hc, ih hnd.2]

/-- The function `advance_turn` moves the turn reference from a member of the
active group to its cyclic successor and changes nothing else. -/
theorem advance_turn_split (game : GameState) (pre post : List Client) (p : Client)
    (h : game.head = pre ++ p :: post)
    (hnd : (game.head.map (fun c => c.addr)).Nodup)
    (ht : game.has_next_turn = some p.addr) :
    advance_turn game
      = some { game with has_next_turn := some (successor pre post p).addr } := by
  rw [h] at hnd
  have hn := next_of_split pre post p hnd
  unfold advance_turn
  rw [ht]
  simp only [h, hn]
  cases post with
  | nil =>
    cases pre with
    | nil => simp [successor]
    | cons c pre => simp [successor]
  | cons n rest => simp [successor]

/-! ## C1: the turn invariant -/

/-- An empty active group with a turn reference that is set breaks the turn
invariant. -/
theorem not_turnInvariant_of_empty (game : GameState) (a : Nat) (h : game.head = [])
    (ht : game.has_next_turn = some a) : ¬ TurnInvariant game := by
  rintro (⟨_, h1⟩ | ⟨_, _, c, hc, _⟩)
  · rw [ht] at h1; exact Option.noConfusion h1
  · rw [h] at hc; exact absurd hc (List.not_mem_nil c)

/-- C1 (the code departs from the claim): after the only active session, which
holds the turn, disconnects, the active group is empty but the turn reference
still holds the address of the freed node, so the turn invariant is broken; and
when the next client then joins, the turn announcement reads that freed node. -/
theorem turn_reference_dangles_after_last_holder_leaves :
    (∃ s, run sample_config (initial sample_config calm) last_holder_leaves = some s
      ∧ s.game.head = [] ∧ s.game.has_next_turn = some 1000 ∧ ¬ TurnInvariant s.game)
    ∧ run sample_config (initial sample_config calm)
        (last_holder_leaves ++ [(calm, Event.accept 1001 4 []),
          (calm, Event.ready 4 "bob\r\n".toList)]) = none := by
  exact ⟨⟨_, rfl, rfl, rfl, not_turnInvariant_of_empty _ 1000 rfl rfl⟩, by rfl⟩

/-! ## C3: `advance_turn` -/

/-- C3, counterexample: on an empty active group with the turn reference unset,
`advance_turn` reads `game->has_next_turn->next` through a null pointer and
yields no game state, so it does not leave the turn reference cleared. -/
theorem advance_turn_undefined_on_empty_group :
    advance_turn empty_game = none
      ∧ ¬ ∃ g, advance_turn empty_game = some g ∧ g.has_next_turn = none := by
  refine ⟨rfl, ?_⟩
  rintro ⟨g, h, _⟩
  exact Option.noConfusion h

/-- C3, as amended: when the turn reference refers to a member `p` of the active
group, `advance_turn` sets it to the session `q` that follows `p` in list order,
or to the head of the active group when `p` is the last one, and changes nothing
else in the game state. -/
theorem advance_turn_moves_to_successor (game : GameState) (pre post : List Client)
    (p : Client) (h : game.head = pre ++ p :: post)
    (hnd : (game.head.map (fun c => c.addr)).Nodup)
    (ht : game.has_next_turn = some p.addr) :
    ∃ q, advance_turn game = some { game with has_next_turn := some q.addr }
      ∧ q ∈ game.head
      ∧ (∀ n rest, post = n :: rest → q = n)
      ∧ (post = [] → game.head.head? = some q) := by
  refine ⟨successor pre post p, advance_turn_split game pre post p h hnd ht, ?_, ?_, ?_⟩
  · rw [h]
    cases post with
    | nil =>
      cases pre with
      | nil => simp [successor]
      | cons c pre => simp [successor]
    | cons n rest => simp [successor]
  · intro n rest hp
    simp [successor, hp]
  · intro hp
    rw [h, hp]
    cases pre with
    | nil => simp [successor]
    | cons c pre => simp [successor]

/-- C3, witness: with the active group ann, bob and the turn on bob, the last of
the list, the turn wraps to the head. -/
theorem advance_turn_moves_to_successor_witness :
    (cat_game [ann, bob] (some 1001)).head = [ann] ++ bob :: []
      ∧ ((cat_game [ann, bob] (some 1001)).head.map (fun c => c.addr)).Nodup
      ∧ ∃ q, advance_turn (cat_game [ann, bob] (some 1001))
            = some { cat_game [ann, bob] (some 1001) with has_next_turn := some q.addr }
          ∧ q ∈ (cat_game [ann, bob] (some 1001)).head
          ∧ (∀ n rest, ([] : List Client) = n :: rest → q = n)
          ∧ (([] : List Client) = [] → (cat_game [ann, bob] (some 1001)).head.head? = some q) :=
  ⟨rfl, by decide,
    advance_turn_moves_to_successor (cat_game [ann, bob] (some 1001)) [ann] [] bob rfl
      (by decide) rfl⟩

/-- A node of a list without repeated addresses is the one its address refers
to. -/
theorem deref_mem (l : List Client) (c : Client) (hc : c ∈ l)
    (hnd : (l.map (fun c => c.addr)).Nodup) : deref l c.addr = some c := by
  induction l with
  | nil => exact absurd hc (List.not_mem_nil c)
  | cons d l ih =>
    simp only [List.map_cons, List.nodup_cons] at hnd
    by_cases hd : d = c
    · subst hd; simp [deref]
    · have hc1 : c ∈ l := by
        rcases List.mem_cons.mp hc with h | h
        · exact absurd h.symm hd
        · exact h
      have hne : d.addr ≠ c.addr := fun h => hnd.1 (by rw [h]; exact List.mem_map_of_mem _ hc1)
      have := ih hc1 hnd.2
      simp only [deref] at this ⊢
      simp [List.find?, hne, this]

/-- Two nodes of a list without repeated descriptors that share a descriptor are
the same node. -/
theorem eq_of_fd_eq (l : List Client) (c d : Client) (hc : c ∈ l) (hd : d ∈ l)
    (hnd : (l.map (fun c => c.fd)).Nodup) (h : c.fd = d.fd) : c = d :=
  List.inj_on_of_nodup_map hnd hc hd h

/-- The function `remove_player` takes the departing node out of a list without
repeated descriptors and keeps the order of the others. -/
theorem remove_player_split (pre post : List Client) (p : Client)
    (hnd : ((pre ++ p :: post).map (fun c => c.fd)).Nodup) :
    remove_player (pre ++ p :: post) p.fd = pre ++ post := by
  induction pre with
  | nil => simp [remove_player]
  | cons c pre ih =>
    simp only [List.cons_append, List.map_cons, List.nodup_cons] at hnd
    have hc : c.fd ≠ p.fd := fun h => hnd.1 (by simp [h])
    simp [remove_player, hc, ih hnd.2]

/-- Taking one node out of a list keeps the values of a field distinct. -/
theorem nodup_map_remove {β : Type} (f : Client → β) (pre post : List Client) (p : Client)
    (hnd : ((pre ++ p :: post).map f).Nodup) : ((pre ++ post).map f).Nodup :=
  hnd.sublist (((List.Sublist.refl pre).append (List.sublist_cons_self p post)).map f)

/-- The cyclic successor is one of the other sessions when there is one. -/
theorem successor_mem (pre post : List Client) (p : Client) (h : pre ++ post ≠ []) :
    successor pre post p ∈ pre ++ post := by
  cases post with
  | nil =>
    cases pre with
    | nil => exact absurd rfl h
    | cons c pre => simp [successor]
  | cons n rest => simp [successor]

/-- The function `announce_guess_and_turn`, when the turn reference refers to
the member `q` of the active group and the prompt is delivered. -/
theorem announce_eq (w : World) (game : GameState) (q : Client) (hq : q ∈ game.head)
    (hnd : (game.head.map (fun c => c.addr)).Nodup)
    (hfd : (game.head.map (fun c => c.fd)).Nodup)
    (ht : game.has_next_turn = some q.addr) (hw : w.wfail q.fd = false) :
    announce_guess_and_turn w game = some (announcement w game.head q) := by
  unfold announce_guess_and_turn
  rw [ht]
  simp only [deref_mem game.head q hq hnd, hw]
  simp only [announcement, to_all, broadcast, broadcast_go_eq, Bool.false_eq_true, if_false]
  congr 3
  apply List.filter_congr
  intro c hc
  by_cases h : c = q
  · simp [h]
  · have : q.fd ≠ c.fd := fun e => h (eq_of_fd_eq game.head c q hc hq hfd e.symm)
    simp [h, this]

/-- Overwriting the node of `p` in a list without repeated addresses changes that
node only. -/
theorem update_client_split (pre post : List Client) (p p1 : Client) (ha : p1.addr = p.addr)
    (hnd : ((pre ++ p :: post).map (fun c => c.addr)).Nodup) :
    update_client (pre ++ p :: post) p1 = pre ++ p1 :: post := by
  have hmap : ∀ l : List Client, (∀ c ∈ l, c.addr ≠ p.addr) →
      l.map (fun c => if c.addr = p1.addr then p1 else c) = l := by
    intro l hl
    induction l with
    | nil => rfl
    | cons d l ih =>
      have hd : d.addr ≠ p1.addr := by rw [ha]; exact hl d (List.mem_cons_self _ _)
      rw [List.map_cons, if_neg hd, ih (fun c hc => hl c (List.mem_cons_of_mem _ hc))]
  rw [List.map_append, List.map_cons, List.nodup_append] at hnd
  obtain ⟨_, h2, h3⟩ := hnd
  have hpre : ∀ c ∈ pre, c.addr ≠ p.addr := fun c hc e =>
    h3 (List.mem_map_of_mem _ hc) (by rw [e]; exact List.mem_cons_self _ _)
  have hpost : ∀ c ∈ post, c.addr ≠ p.addr := fun c hc e =>
    (List.nodup_cons.mp h2).1 (by rw [← e]; exact List.mem_map_of_mem _ hc)
  unfold update_client
  rw [List.map_append, List.map_cons, hmap pre hpre, hmap post hpost, if_pos ha.symm]

/-- The search of a list without repeated descriptors for the descriptor of one
of its nodes finds that node. -/
theorem find_fd_split (pre post : List Client) (p : Client)
    (hfd : ((pre ++ p :: post).map (fun c => c.fd)).Nodup) :
    (pre ++ p :: post).find? (fun c => decide (c.fd = p.fd)) = some p := by
  induction pre with
  | nil => simp
  | cons c pre ih =>
    simp only [List.cons_append, List.map_cons, List.nodup_cons] at hfd
    have hc : c.fd ≠ p.fd := fun h => hfd.1 (by simp [h])
    simp [List.find?, hc, ih hfd.2]

/-- The dispatch of lines 191 to 331 of `main` when the descriptor of the
turn-holder `p` is ready and its read returns no bytes: the case `-1` of the
turn-holder branch runs on the state as it is. -/
theorem ready_turn_holder_closed (cfg : Config) (w : World) (s : Server) (p : Client)
    (pre post : List Client)
    (h : s.game.head = pre ++ p :: post)
    (hnd : (s.game.head.map (fun c => c.addr)).Nodup)
    (hfd : (s.game.head.map (fun c => c.fd)).Nodup)
    (ht : s.game.has_next_turn = some p.addr)
    (hin : p.in_ptr ≤ cfg.MAX_BUF)
    (hpend : ∀ c ∈ s.new_players, c.fd ≠ p.fd) :
    ready_client cfg w s p.fd [] = turn_holder_input cfg w s p (-1) none := by
  have hp : p ∈ s.game.head := by rw [h]; simp
  have hderef := deref_mem s.game.head p hp hnd
  rw [h] at hnd hfd
  have hfind := find_fd_split pre post p hfd
  have hup := update_client_split pre post p p rfl hnd
  have hany : s.new_players.any (fun c => decide (c.fd = p.fd)) = false := by
    rw [List.any_eq_false]
    intro c hc
    simpa using hpend c hc
  have hread : read_partial_input_from_client cfg w.stray p [] = some ⟨-1, p, none⟩ := by
    unfold read_partial_input_from_client
    simp only [List.length_nil, Nat.add_zero]
    rw [if_neg (by omega), if_neg (by omega)]
    simp
  rw [← h] at hfind hup
  unfold ready_client
  simp only [hfind, hany, ht, hderef, hread, hup, Bool.false_eq_true, if_false, ne_eq,
    not_true_eq_false]
  rw [← ht]

/-! ## C4: the turn-holder leaves -/

/-- C4: the descriptor of the turn-holder `p` is ready and its read reports
peer-closed, and the active group `pre ++ p :: post` has other sessions.  Then,
the prompt to the new turn-holder being delivered, (i) the active group becomes
`pre ++ post`, which no longer holds `p`, (ii) the turn reference is the cyclic
successor of `p`, and (iii) the writes are the departure notice to every
remaining session, then the prompt to the new turn-holder and the turn notice to
every other remaining session; nothing else changes. -/
theorem turn_holder_departure (cfg : Config) (w : World) (s : Server) (p : Client)
    (pre post : List Client)
    (h : s.game.head = pre ++ p :: post)
    (hnd : (s.game.head.map (fun c => c.addr)).Nodup)
    (hfd : (s.game.head.map (fun c => c.fd)).Nodup)
    (ht : s.game.has_next_turn = some p.addr)
    (hin : p.in_ptr ≤ cfg.MAX_BUF)
    (hpend : ∀ c ∈ s.new_players, c.fd ≠ p.fd)
    (htwo : pre ++ post ≠ [])
    (hw : w.wfail (successor pre post p).fd = false) :
    ready_client cfg w s p.fd []
        = some { s with
            game := { s.game with head := pre ++ post,
                                  has_next_turn := some (successor pre post p).addr },
            out := s.out
              ++ to_all w (pre ++ post) ("Goodbye ".toList ++ p.name ++ "\r\n".toList)
              ++ announcement w (pre ++ post) (successor pre post p) }
      ∧ p ∉ pre ++ post
      ∧ successor pre post p ∈ pre ++ post := by
  have hmem := successor_mem pre post p htwo
  refine ⟨?_, ?_, hmem⟩
  · rw [ready_turn_holder_closed cfg w s p pre post h hnd hfd ht hin hpend]
    have hadv := advance_turn_split s.game pre post p h hnd ht
    rw [h] at hnd hfd
    have hrem := remove_player_split pre post p hfd
    have hann := announce_eq w
      { s.game with head := pre ++ post, has_next_turn := some (successor pre post p).addr }
      (successor pre post p) hmem (nodup_map_remove _ pre post p hnd)
      (nodup_map_remove _ pre post p hfd) rfl hw
    simp only [turn_holder_input, hadv, h, hrem, if_true, if_neg htwo, hann, broadcast_all,
      to_all, List.append_assoc]
  · intro hp
    rw [h] at hfd
    have := (List.nodup_append.mp (by simpa using hfd :
      ((pre.map (fun c => c.fd)) ++ (p.fd :: post.map (fun c => c.fd))).Nodup))
    rcases List.mem_append.mp hp with h1 | h1
    · exact this.2.2 (List.mem_map_of_mem _ h1) (List.mem_cons_self _ _)
    · exact (List.nodup_cons.mp this.2.1).1 (List.mem_map_of_mem _ h1)

set_option maxRecDepth 8192 in
/-- C4, witness: ann holds the turn and bob is the other active session; ann
disconnects, the turn becomes bob's, and bob alone receives the departure notice,
then the prompt. -/
theorem turn_holder_departure_witness :
    (cat_server [bob, ann] (some 1000)).game.head = [bob] ++ ann :: []
      ∧ ((cat_server [bob, ann] (some 1000)).game.head.map (fun c => c.addr)).Nodup
      ∧ ((cat_server [bob, ann] (some 1000)).game.head.map (fun c => c.fd)).Nodup
      ∧ [bob] ++ ([] : List Client) ≠ []
      ∧ calm.wfail (successor [bob] [] ann).fd = false
      ∧ ready_client sample_config calm (cat_server [bob, ann] (some 1000)) ann.fd []
          = some { cat_server [bob] (some 1001) with
              out := [⟨5, "Goodbye ann\r\n".toList, true⟩, ⟨5, "Your guess?\r\n".toList, true⟩] } :=
  ⟨rfl, by decide, by decide, by decide, rfl,
    (turn_holder_departure sample_config calm (cat_server [bob, ann] (some 1000)) ann [bob] []
      rfl (by decide) (by decide) rfl (by decide) (by decide) (by decide) rfl).1⟩

/-! ## C5: the reveal buffer and the guessed table -/



theorem generate_go_length (c : Char) (ws : List Char) (i : Nat) (g : List Char) :
    (generate_guess.go c ws i g).length = g.length := by
  induction ws generalizing i g with
  | nil => rfl
  | cons x rest ih =>
    rw [generate_guess.go, ih]
    split <;> simp

theorem generate_go_getD (c : Char) (ws : List Char) (i : Nat) (g : List Char) (j : Nat) :
    (generate_guess.go c ws i g).getD j NUL
      = if i ≤ j ∧ j < i + ws.length ∧ j < g.length ∧ ws.getD (j - i) NUL = c then c
        else g.getD j NUL := by
  induction ws generalizing i g with
  | nil =>
    have : ¬ (i ≤ j ∧ j < i + ([] : List Char).length ∧ j < g.length
        ∧ ([] : List Char).getD (j - i) NUL = c) := by
      simp only [List.length_nil]; omega
    rw [generate_guess.go, if_neg this]
  | cons x rest ih =>
    rw [generate_guess.go, ih]
    rcases Nat.lt_trichotomy j i with hj | hj | hj
    · have h1 : ¬ (i + 1 ≤ j) := by omega
      have h2 : ¬ (i ≤ j) := by omega
      simp only [h1, h2, false_and, if_false]
      split
      · simp only [List.getD_eq_getElem?_getD, List.getElem?_set]
        rw [if_neg (by omega)]
      · rfl
    · subst hj
      have h1 : ¬ (j + 1 ≤ j) := by omega
      simp only [h1, false_and, if_false, Nat.sub_self, List.getD_cons_zero, Nat.le_refl,
        true_and, List.length_cons]
      by_cases hx : x = c
      · simp only [hx, if_true, List.getD_eq_getElem?_getD, List.getElem?_set, and_true]
        by_cases hl : j < g.length
        · simp [hl]
        · have : g[j]? = none := List.getElem?_eq_none (by omega)
          simp [hl, this]
      · simp [hx]
    · have e : j - i = (j - (i + 1)) + 1 := by omega
      have hlen : (if x = c then g.set i c else g).length = g.length := by split <;> simp
      have hget : (if x = c then g.set i c else g).getD j NUL = g.getD j NUL := by
        split
        · simp only [List.getD_eq_getElem?_getD, List.getElem?_set]
          rw [if_neg (by omega)]
        · rfl
      rw [hlen, hget, e, List.getD_cons_succ, List.length_cons]
      have : (i + 1 ≤ j ∧ j < i + 1 + rest.length ∧ j < g.length
            ∧ rest.getD (j - (i + 1)) NUL = c)
          ↔ (i ≤ j ∧ j < i + (rest.length + 1) ∧ j < g.length
            ∧ rest.getD (j - (i + 1)) NUL = c) := by
        constructor <;> rintro ⟨a, b, c, d⟩ <;> exact ⟨by omega, by omega, c, d⟩
      rw [if_congr this rfl rfl]

theorem generate_guess_length (word guess : List Char) (c : Char) :
    (generate_guess word guess c).length = guess.length :=
  generate_go_length c word 0 guess

theorem generate_guess_getD (word guess : List Char) (c : Char) (j : Nat)
    (hl : guess.length = word.length) (hj : j < word.length) :
    (generate_guess word guess c).getD j NUL
      = if word.getD j NUL = c then c else guess.getD j NUL := by
  unfold generate_guess
  rw [generate_go_getD]
  have : (0 ≤ j ∧ j < 0 + word.length ∧ j < guess.length ∧ word.getD (j - 0) NUL = c)
      ↔ word.getD j NUL = c := by
    constructor
    · rintro ⟨_, _, _, h⟩; simpa using h
    · intro h; exact ⟨by omega, by omega, by omega, by simpa using h⟩
  rw [if_congr this rfl rfl]



theorem char_eq_of_toNat_eq (x c : Char) (h : x.toNat = c.toNat) : x = c := by
  rw [← Char.ofNat_toNat x, ← Char.ofNat_toNat c, h]

/-- Marking the lowercase letter `c` in the guessed table marks `c` and no other
letter. -/
theorem marked_set (game : GameState) (c x : Char) (h1 : 97 ≤ c.toNat) (h2 : c.toNat ≤ 122)
    (hl : 26 ≤ game.letters_guessed.length) :
    marked { game with letters_guessed := game.letters_guessed.set (c.toNat - 97) 1 } x
      = (marked game x || decide (x = c)) := by
  by_cases hx : x = c
  · subst hx
    have : x.toNat - 97 < game.letters_guessed.length := by omega
    simp [marked, h1, h2, List.getElem?_set, this]
  · have hne : x.toNat ≠ c.toNat := fun h => hx (char_eq_of_toNat_eq x c h)
    simp only [marked, hx, decide_False, Bool.or_false, List.getD_eq_getElem?_getD,
      List.getElem?_set]
    by_cases ha : 97 ≤ x.toNat
    · have : ¬ (c.toNat - 97 = x.toNat - 97) := by omega
      rw [if_neg this]
    · simp [ha]

/-- The function `advance_turn` changes the turn reference only. -/
theorem advance_turn_fields (game g : GameState) (h : advance_turn game = some g) :
    g = { game with has_next_turn := g.has_next_turn } := by
  unfold advance_turn at h
  split at h
  · exact Option.noConfusion h
  · split at h
    · exact Option.noConfusion h
    · cases h; rfl
    · cases h; rfl

/-- What lines 267 to 290 do to the round: the letter is marked, the reveal
buffer is updated by `generate_guess`, and the counter goes down by one. -/
theorem guess_letter_round (cfg : Config) (w : World) (game g : GameState) (p : Client)
    (c : Char) (o : List Sent) (h : guess_letter cfg w game p c = some (g, o)) :
    g.word = game.word
      ∧ g.guess = generate_guess game.word game.guess c
      ∧ g.letters_guessed = game.letters_guessed.set (c.toNat - 97) 1
      ∧ g.guesses_left = game.guesses_left - 1 := by
  unfold guess_letter at h
  simp only at h
  split at h
  · exact Option.noConfusion h
  · rename_i g2 o1 heq
    cases h
    split at heq
    · split at heq
      · exact Option.noConfusion heq
      · split at heq
        · exact Option.noConfusion heq
        · rename_i g' hadv
          cases heq
          have := advance_turn_fields _ _ hadv
          rw [this]
          exact ⟨rfl, rfl, rfl, rfl⟩
    · cases heq
      exact ⟨rfl, rfl, rfl, rfl⟩

/-- A freshly initialised round is in lock-step. -/
theorem lockStep_of_fresh (cfg : Config) (game : GameState) (h : Fresh cfg game) :
    LockStep cfg game := by
  obtain ⟨hg, hl⟩ := h
  refine ⟨by rw [hg, List.length_replicate], ?_⟩
  intro i hi
  have hm : ∀ x, marked game x = false := by
    intro x
    have : (List.replicate cfg.NUM_LETTERS 0).getD (x.toNat - 97) 0 ≠ 1 := by
      simp only [List.getD_eq_getElem?_getD, List.getElem?_replicate]
      split <;> simp
    simp [marked, hl, this]
  rw [hm, hg]
  simp [List.getElem?_replicate, hi]

/-- The guess of a lowercase letter keeps the round in lock-step. -/
theorem lockStep_guess_letter (cfg : Config) (w : World) (game g : GameState) (p : Client)
    (c : Char) (o : List Sent) (h1 : 97 ≤ c.toNat) (h2 : c.toNat ≤ 122)
    (hl : 26 ≤ game.letters_guessed.length) (hinv : LockStep cfg game)
    (h : guess_letter cfg w game p c = some (g, o)) :
    LockStep cfg g ∧ 26 ≤ g.letters_guessed.length := by
  obtain ⟨hw, hg, hlg, _⟩ := guess_letter_round cfg w game g p c o h
  obtain ⟨hlen, hpos⟩ := hinv
  refine ⟨⟨?_, ?_⟩, by rw [hlg, List.length_set]; exact hl⟩
  · rw [hg, hw, generate_guess_length, hlen]
  · intro i hi
    rw [hw] at hi
    have hm : ∀ x, marked g x = (marked game x || decide (x = c)) := by
      intro x
      rw [← marked_set game c x h1 h2 hl]
      simp [marked, hlg]
    rw [hg, hw, generate_guess_getD _ _ _ _ hlen hi, hm, hpos i hi]
    generalize game.word.getD i NUL = x
    by_cases hx : x = c
    · simp [hx]
    · simp [hx]

/-- The function `new_game` starts from what `init_game` sets up. -/
theorem new_game_state (cfg : Config) (w : World) (game g : GameState) (o : List Sent)
    (h : new_game cfg w game = some (g, o)) : g = init_game cfg w game := by
  unfold new_game at h
  simp only at h
  split at h
  · exact Option.noConfusion h
  · cases h; rfl

/-- After the round is resolved the game is as before or freshly initialised. -/
theorem resolve_round_state (cfg : Config) (w : World) (game g : GameState) (p : Client)
    (o : List Sent) (h : resolve_round cfg w game p = some (g, o)) :
    g = game ∨ Fresh cfg g := by
  unfold resolve_round at h
  split at h
  · simp only at h
    split at h
    · exact Option.noConfusion h
    · split at h
      · exact Option.noConfusion h
      · rename_i g1 o1 hn
        cases h
        rw [new_game_state cfg w _ _ _ hn]
        exact Or.inr ⟨rfl, rfl⟩
  · simp only at h
    split at h
    · exact Option.noConfusion h
    · rename_i g1 o1 hn
      cases h
      rw [new_game_state cfg w _ _ _ hn]
      exact Or.inr ⟨rfl, rfl⟩
  · split at h
    · exact Option.noConfusion h
    · cases h
      exact Or.inl rfl

/-- Lock-step only looks at the word, the reveal buffer and the guessed table. -/
theorem lockStep_congr (cfg : Config) (g1 g2 : GameState) (hw : g1.word = g2.word)
    (hg : g1.guess = g2.guess) (hl : g1.letters_guessed = g2.letters_guessed)
    (h : LockStep cfg g2) : LockStep cfg g1 := by
  unfold LockStep marked at *
  rw [hw, hg, hl]
  exact h

/-- One complete line handled by the turn-holder branch keeps the round in
lock-step. -/
theorem lockStep_turn_holder_line (cfg : Config) (w : World) (s s1 : Server) (p : Client)
    (line : Option (List Char)) (h26 : 26 ≤ cfg.NUM_LETTERS)
    (hl : 26 ≤ s.game.letters_guessed.length) (hinv : LockStep cfg s.game)
    (h : turn_holder_input cfg w s p 1 line = some s1) :
    LockStep cfg s1.game ∧ 26 ≤ s1.game.letters_guessed.length := by
  unfold turn_holder_input at h
  rw [if_neg (by decide), if_neg (by decide), if_pos rfl] at h
  split at h
  · exact Option.noConfusion h
  · rename_i ln hln
    split at h
    · cases h
      exact ⟨lockStep_congr cfg _ _ rfl rfl rfl hinv, hl⟩
    · rename_i hvalid
      simp only at h
      split at h
      · cases h
        exact ⟨lockStep_congr cfg _ _ rfl rfl rfl hinv, hl⟩
      · split at h
        · exact Option.noConfusion h
        · rename_i g o hg
          split at h
          · exact Option.noConfusion h
          · rename_i g1 o1 hr
            cases h
            simp only [not_or, not_lt] at hvalid
            have hstep := lockStep_guess_letter cfg w s.game g p _ o hvalid.2.1 hvalid.2.2 hl
              hinv hg
            rcases resolve_round_state cfg w g g1 p o1 hr with e | e
            · rw [e]; exact hstep
            · refine ⟨lockStep_of_fresh cfg g1 e, ?_⟩
              rw [e.2, List.length_replicate]; exact h26

/-- Every sequence of complete lines handled by the turn-holder branch keeps the
round in lock-step. -/
theorem lockStep_guesses (cfg : Config) (h26 : 26 ≤ cfg.NUM_LETTERS)
    (inputs : List (World × Client × List Char)) (s s1 : Server)
    (hl : 26 ≤ s.game.letters_guessed.length) (hinv : LockStep cfg s.game)
    (h : guesses cfg s inputs = some s1) :
    LockStep cfg s1.game ∧ 26 ≤ s1.game.letters_guessed.length := by
  induction inputs generalizing s with
  | nil =>
    cases h
    exact ⟨hinv, hl⟩
  | cons e rest ih =>
    rw [guesses] at h
    split at h
    · exact Option.noConfusion h
    · rename_i s2 hs2
      have := lockStep_turn_holder_line cfg e.1 s s2 e.2.1 _ h26 hl hinv hs2
      exact ih s2 this.2 this.1 h

/-- C5: from a freshly initialised round, after every sequence of complete lines
handled by the turn-holder branch of `main`, the reveal buffer has the length of
the target word and holds at every position the letter of the word if that
letter is marked guessed and the placeholder otherwise; and the same holds right
after the next guess of a lowercase letter, before the round is resolved. -/
theorem reveal_lock_step (cfg : Config) (s s1 : Server)
    (inputs : List (World × Client × List Char)) (h26 : 26 ≤ cfg.NUM_LETTERS)
    (hfresh : Fresh cfg s.game) (hrun : guesses cfg s inputs = some s1) :
    LockStep cfg s1.game
      ∧ ∀ (w : World) (p : Client) (c : Char) (g : GameState) (o : List Sent),
          97 ≤ c.toNat → c.toNat ≤ 122 → guess_letter cfg w s1.game p c = some (g, o) →
          LockStep cfg g := by
  have hl : 26 ≤ s.game.letters_guessed.length := by
    rw [hfresh.2, List.length_replicate]; exact h26
  have h := lockStep_guesses cfg h26 inputs s s1 hl (lockStep_of_fresh cfg _ hfresh) hrun
  refine ⟨h.1, ?_⟩
  intro w p c g o h1 h2 hg
  exact (lockStep_guess_letter cfg w s1.game g p c o h1 h2 h.2 h.1 hg).1

set_option maxRecDepth 8192 in
/-- C5, witness: in the round of "cat", after the guesses `c`, `z` and `a` the
reveal buffer is `ca-`, in lock-step with the guessed table. -/
theorem reveal_lock_step_witness :
    26 ≤ sample_config.NUM_LETTERS
      ∧ Fresh sample_config (cat_server [bob, ann] (some 1000)).game
      ∧ ∃ s1, guesses sample_config (cat_server [bob, ann] (some 1000)) sample_guesses = some s1
          ∧ s1.game.guess = "ca-".toList
          ∧ LockStep sample_config s1.game :=
  ⟨by decide, ⟨rfl, rfl⟩, _, rfl, rfl,
    (reveal_lock_step sample_config (cat_server [bob, ann] (some 1000)) _ sample_guesses
      (by decide) ⟨rfl, rfl⟩ rfl).1⟩

/-! ## Lemmas on a new valid guess, shared by C6, C7 and C8 -/



/-- The function `check_exist` returns `-1` exactly when the word does not hold
the letter. -/
theorem check_exist_go (letter : Char) (word : List Char) (i : Nat) :
    check_exist.go letter word i = -1 ↔ letter ∉ word := by
  induction word generalizing i with
  | nil => simp [check_exist.go]
  | cons x rest ih =>
    rw [check_exist.go]
    by_cases h : letter = x
    · simp only [h, if_true, List.mem_cons, true_or, not_true_eq_false, iff_false]
      omega
    · simp [h, ih]

theorem check_exist_eq (letter : Char) (word : List Char) :
    check_exist letter word = -1 ↔ letter ∉ word :=
  check_exist_go letter word 0

/-- The cyclic successor is a member of the group. -/
theorem successor_mem_group (pre post : List Client) (p : Client) :
    successor pre post p ∈ pre ++ p :: post := by
  by_cases h : pre ++ post = []
  · have h1 : pre = [] := (List.append_eq_nil.mp h).1
    have h2 : post = [] := (List.append_eq_nil.mp h).2
    simp [successor, h1, h2]
  · have := successor_mem pre post p h
    rcases List.mem_append.mp this with m | m
    · exact List.mem_append_left _ m
    · exact List.mem_append_right _ (List.mem_cons_of_mem _ m)

theorem next_holder_mem (word : List Char) (pre post : List Client) (p : Client) (c : Char) :
    next_holder word pre post p c ∈ pre ++ p :: post := by
  unfold next_holder
  split
  · simp
  · exact successor_mem_group pre post p

/-- A broadcast that excludes the member `q` writes to every other member. -/
theorem broadcast_except (w : World) (game : GameState) (msg : List Char) (q : Client)
    (hq : q ∈ game.head) (hfd : (game.head.map (fun c => c.fd)).Nodup) :
    broadcast w game msg (some q.fd)
      = to_all w (game.head.filter (fun c => decide (c ≠ q))) msg := by
  simp only [to_all, broadcast, broadcast_go_eq]
  congr 1
  apply List.filter_congr
  intro c hc
  by_cases h : c = q
  · simp [h]
  · have : q.fd ≠ c.fd := fun e => h (eq_of_fd_eq game.head c q hc hq hfd e.symm)
    simp [h, this]

/-- Lines 267 to 290 of `main` for the turn-holder `p`, when the notice to `p`
does not fail. -/
theorem guess_letter_eq (cfg : Config) (w : World) (game : GameState)
    (pre post : List Client) (p : Client) (c : Char)
    (h : game.head = pre ++ p :: post)
    (hnd : (game.head.map (fun c => c.addr)).Nodup)
    (ht : game.has_next_turn = some p.addr) (hwp : w.wfail p.fd = false) :
    guess_letter cfg w game p c
      = some (after_guess game pre post p c, guess_writes cfg w game pre post p c) := by
  unfold guess_letter
  by_cases hc : c ∈ game.word
  · have : ¬ check_exist c game.word = -1 := fun e => (check_exist_eq c game.word).mp e hc
    simp only [this, if_false]
    simp [after_guess, guess_writes, next_holder, hc, broadcast_all, to_all, one_turn, ht]
  · have hce : check_exist c game.word = -1 := (check_exist_eq c game.word).mpr hc
    have hadv := advance_turn_split
      { game with letters_guessed := game.letters_guessed.set (c.toNat - 97) 1 } pre post p
      h hnd ht
    simp only [hce, if_true, send_msg_to_client, hwp, Bool.false_eq_true, if_false, hadv]
    simp [after_guess, guess_writes, next_holder, hc, broadcast_all, to_all, one_turn]

/-- The function `new_game` when the turn reference refers to the member `q` and
the prompt to `q` is delivered. -/
theorem new_game_eq (cfg : Config) (w : World) (game : GameState) (q : Client)
    (hq : q ∈ game.head)
    (hnd : (game.head.map (fun c => c.addr)).Nodup)
    (hfd : (game.head.map (fun c => c.fd)).Nodup)
    (ht : game.has_next_turn = some q.addr) (hw : w.wfail q.fd = false) :
    new_game cfg w game = some (init_game cfg w game, round_start_writes cfg w game q) := by
  have := announce_eq w (init_game cfg w game) q hq hnd hfd ht hw
  simp only [new_game, this, round_start_writes, broadcast_all, one_turn, to_all]
  rfl

/-- Lines 293 to 322 of `main`, when the guesser `p` and the turn-holder `q` are
members of the group and the writes to them do not fail. -/
theorem resolve_round_eq (cfg : Config) (w : World) (game : GameState) (p q : Client)
    (hp : p ∈ game.head) (hq : q ∈ game.head)
    (hnd : (game.head.map (fun c => c.addr)).Nodup)
    (hfd : (game.head.map (fun c => c.fd)).Nodup)
    (ht : game.has_next_turn = some q.addr)
    (hwp : w.wfail p.fd = false) (hwq : w.wfail q.fd = false) :
    resolve_round cfg w game p = some (resolution cfg w game p q) := by
  have hnew := new_game_eq cfg w game q hq hnd hfd ht hwq
  have hann := announce_eq w game q hq hnd hfd ht hwq
  unfold resolve_round resolution
  cases round_outcome game with
  | win =>
    simp only [send_msg_to_client, hwp, Bool.false_eq_true, if_false, hnew, win_writes,
      broadcast_except w game _ p hp hfd]
    rfl
  | exhausted =>
    simp only [hnew, broadcast_all, to_all, no_left]
  | «continue» =>
    simp only [hann]

/-- The turn-holder branch of `main` for a complete line that is one lowercase
letter not guessed before. -/
theorem turn_holder_guess_eq (cfg : Config) (w : World) (s : Server)
    (pre post : List Client) (p : Client) (c : Char) (line : Option (List Char))
    (h : s.game.head = pre ++ p :: post)
    (hnd : (s.game.head.map (fun c => c.addr)).Nodup)
    (hfd : (s.game.head.map (fun c => c.fd)).Nodup)
    (ht : s.game.has_next_turn = some p.addr)
    (hline : line.bind cstr = some [c])
    (h1 : 97 ≤ c.toNat) (h2 : c.toNat ≤ 122)
    (hnew : s.game.letters_guessed.getD (c.toNat - 97) 0 ≠ 1)
    (hwp : w.wfail p.fd = false)
    (hwq : w.wfail (next_holder s.game.word pre post p c).fd = false) :
    turn_holder_input cfg w s p 1 line
      = some { s with
          game := (resolution cfg w (after_guess s.game pre post p c) p
            (next_holder s.game.word pre post p c)).1,
          out := s.out ++ guess_writes cfg w s.game pre post p c
            ++ (resolution cfg w (after_guess s.game pre post p c) p
              (next_holder s.game.word pre post p c)).2 } := by
  have hg := guess_letter_eq cfg w s.game pre post p c h hnd ht hwp
  have hp : p ∈ (after_guess s.game pre post p c).head := by
    show p ∈ s.game.head
    rw [h]; simp
  have hq : next_holder s.game.word pre post p c ∈ (after_guess s.game pre post p c).head := by
    show _ ∈ s.game.head
    rw [h]; exact next_holder_mem _ pre post p c
  have hr := resolve_round_eq cfg w (after_guess s.game pre post p c) p
    (next_holder s.game.word pre post p c) hp hq hnd hfd rfl hwp hwq
  unfold turn_holder_input
  rw [if_neg (by decide), if_neg (by decide), if_pos rfl]
  simp only [hline]
  have hv : ¬ ([c].length ≠ 1 ∨ ([c].headD NUL).toNat < 97 ∨ 122 < ([c].headD NUL).toNat) := by
    simp only [List.length_singleton, List.headD_cons, ne_eq, not_true_eq_false, false_or]
    omega
  rw [if_neg hv]
  simp only [List.headD_cons, if_neg hnew, hg, hr]

/-! ## C6: the outcome of a new valid guess -/

theorem no_left_head : no_left = 'N' :: "o guesses left. Game over.\r\n\r\n".toList := rfl

theorem no_left_reverse :
    no_left.reverse = '\n' :: '\r' :: '\n' :: "\r.revo emaG .tfel sesseug oN".toList := rfl

/-- The broadcast of a guess is not the text "No guesses left. Game over.". -/
theorem guess_msg_ne_no_left (name : List Char) (c : Char) (h1 : 97 ≤ c.toNat) :
    name ++ " guesses: ".toList ++ c :: "\r\n".toList ≠ no_left := by
  intro h
  have h3 := congrArg List.reverse h
  rw [no_left_reverse] at h3
  have e : "\r\n".toList = ['\r', '\n'] := rfl
  rw [e] at h3
  simp only [List.reverse_append, List.reverse_cons, List.reverse_nil, List.nil_append,
    List.cons_append, List.append_assoc, List.cons.injEq] at h3
  have := h3.2.2.1
  rw [this] at h1
  exact absurd h1 (by decide)

/-- Every write of `to_all` carries the message. -/
theorem to_all_msg (w : World) (l : List Client) (msg : List Char) (x : Sent)
    (hx : x ∈ to_all w l msg) : x.msg = msg := by
  unfold to_all at hx
  obtain ⟨_, _, rfl⟩ := List.mem_map.mp hx
  rfl

/-- No write of a win has the text "No guesses left. Game over.", unless the
status line is that text. -/
theorem win_has_no_no_left (cfg : Config) (w : World) (game g : GameState)
    (pre post : List Client) (p q : Client) (c : Char) (h1 : 97 ≤ c.toNat)
    (hs : ∀ x, cfg.status_message x ≠ no_left) :
    ∀ x ∈ guess_writes cfg w game pre post p c ++ win_writes cfg w g p q, x.msg ≠ no_left := by
  have e1 : "Game over! You win!\r\n\r\n".toList ≠ no_left := by decide
  have e2 : "Let's start a new game\r\n".toList ≠ no_left := by decide
  have e3 : "Your guess?\r\n".toList ≠ no_left := by decide
  have e4 : ∀ t : List Char, c :: t ≠ no_left := by
    intro t h
    rw [no_left_head] at h
    injection h with h _
    rw [h] at h1
    exact absurd h1 (by decide)
  have e5 : ∀ t : List Char, "Game over! ".toList ++ t ≠ no_left := by
    intro t h
    have e : "Game over! ".toList = 'G' :: "ame over! ".toList := rfl
    rw [no_left_head, e, List.cons_append] at h
    injection h with h _
    exact absurd h (by decide)
  have e6 : ∀ t : List Char, "It's ".toList ++ t ≠ no_left := by
    intro t h
    have e : "It's ".toList = 'I' :: "t's ".toList := rfl
    rw [no_left_head, e, List.cons_append] at h
    injection h with h _
    exact absurd h (by decide)
  have e7 := guess_msg_ne_no_left p.name c h1
  intro x hx
  rcases List.mem_append.mp hx with hx | hx
  · unfold guess_writes at hx
    rcases List.mem_append.mp hx with hx | hx
    · rcases List.mem_append.mp hx with hx | hx
      · split at hx
        · exact absurd hx (List.not_mem_nil x)
        · rw [List.mem_singleton.mp hx]; exact e4 _
      · rw [to_all_msg w _ _ x hx]; exact e7
    · rw [to_all_msg w _ _ x hx]; exact hs _
  · unfold win_writes at hx
    rcases List.mem_append.mp hx with hx | hx
    · rcases List.mem_cons.mp hx with hx | hx
      · rw [hx]; exact e1
      · rw [to_all_msg w _ _ x hx, List.append_assoc]; exact e5 _
    · unfold round_start_writes at hx
      rcases List.mem_append.mp hx with hx | hx
      · rcases List.mem_append.mp hx with hx | hx
        · rw [to_all_msg w _ _ x hx]; exact e2
        · rw [to_all_msg w _ _ x hx]; exact hs _
      · unfold announcement at hx
        rcases List.mem_cons.mp hx with hx | hx
        · rw [hx]; exact e3
        · rw [to_all_msg w _ _ x hx, List.append_assoc]; exact e6 _

/-- C6: the turn-holder `p` of the group `pre ++ p :: post` sends a complete line
that is one lowercase letter `c` not guessed before, and the writes to `p` and to
the next turn-holder do not fail.  The guess lowers the counter by exactly one.
If the reveal buffer then equals the word the outcome is a win, whatever the
counter, and no write has the text "No guesses left. Game over." (the status
line apart); otherwise, if the counter is zero, the outcome is exhausted, that
text is written to every active session and a new round is started and
announced; otherwise the round continues with the turn announcement. -/
theorem round_outcome_of_new_guess (cfg : Config) (w : World) (s : Server)
    (pre post : List Client) (p : Client) (c : Char) (line : Option (List Char))
    (h : s.game.head = pre ++ p :: post)
    (hnd : (s.game.head.map (fun c => c.addr)).Nodup)
    (hfd : (s.game.head.map (fun c => c.fd)).Nodup)
    (ht : s.game.has_next_turn = some p.addr)
    (hline : line.bind cstr = some [c])
    (h1 : 97 ≤ c.toNat) (h2 : c.toNat ≤ 122)
    (hnew : s.game.letters_guessed.getD (c.toNat - 97) 0 ≠ 1)
    (hwp : w.wfail p.fd = false)
    (hwq : w.wfail (next_holder s.game.word pre post p c).fd = false) :
    guess_letter cfg w s.game p c
        = some (after_guess s.game pre post p c, guess_writes cfg w s.game pre post p c)
      ∧ (after_guess s.game pre post p c).guesses_left = s.game.guesses_left - 1
      ∧ ((after_guess s.game pre post p c).guess = s.game.word →
          round_outcome (after_guess s.game pre post p c) = Outcome.win
          ∧ turn_holder_input cfg w s p 1 line
              = some { s with
                  game := init_game cfg w (after_guess s.game pre post p c),
                  out := s.out ++ guess_writes cfg w s.game pre post p c
                    ++ win_writes cfg w (after_guess s.game pre post p c) p
                        (next_holder s.game.word pre post p c) }
          ∧ ((∀ x, cfg.status_message x ≠ no_left) →
              ∀ x ∈ guess_writes cfg w s.game pre post p c
                  ++ win_writes cfg w (after_guess s.game pre post p c) p
                      (next_holder s.game.word pre post p c),
                x.msg ≠ no_left))
      ∧ ((after_guess s.game pre post p c).guess ≠ s.game.word →
          (after_guess s.game pre post p c).guesses_left = 0 →
          round_outcome (after_guess s.game pre post p c) = Outcome.exhausted
          ∧ turn_holder_input cfg w s p 1 line
              = some { s with
                  game := init_game cfg w (after_guess s.game pre post p c),
                  out := s.out ++ guess_writes cfg w s.game pre post p c
                    ++ (to_all w s.game.head no_left
                      ++ round_start_writes cfg w (after_guess s.game pre post p c)
                          (next_holder s.game.word pre post p c)) })
      ∧ ((after_guess s.game pre post p c).guess ≠ s.game.word →
          (after_guess s.game pre post p c).guesses_left ≠ 0 →
          round_outcome (after_guess s.game pre post p c) = Outcome.continue
          ∧ turn_holder_input cfg w s p 1 line
              = some { s with
                  game := after_guess s.game pre post p c,
                  out := s.out ++ guess_writes cfg w s.game pre post p c
                    ++ announcement w s.game.head (next_holder s.game.word pre post p c) }) := by
  have hmain := turn_holder_guess_eq cfg w s pre post p c line h hnd hfd ht hline h1 h2 hnew
    hwp hwq
  refine ⟨guess_letter_eq cfg w s.game pre post p c h hnd ht hwp, rfl, ?_, ?_, ?_⟩
  · intro hwin
    have ho : round_outcome (after_guess s.game pre post p c) = Outcome.win := by
      unfold round_outcome
      exact if_pos hwin.symm
    refine ⟨ho, ?_, fun hs => win_has_no_no_left cfg w s.game _ pre post p _ c h1 hs⟩
    rw [hmain]
    simp only [resolution, ho]
  · intro hne hz
    have ho : round_outcome (after_guess s.game pre post p c) = Outcome.exhausted := by
      unfold round_outcome
      rw [if_neg (show ¬ (after_guess s.game pre post p c).word
        = (after_guess s.game pre post p c).guess from fun e => hne e.symm), if_pos hz]
    refine ⟨ho, ?_⟩
    rw [hmain]
    simp only [resolution, ho]
    rfl
  · intro hne hz
    have ho : round_outcome (after_guess s.game pre post p c) = Outcome.continue := by
      unfold round_outcome
      rw [if_neg (show ¬ (after_guess s.game pre post p c).word
        = (after_guess s.game pre post p c).guess from fun e => hne e.symm), if_neg hz]
    refine ⟨ho, ?_⟩
    rw [hmain]
    simp only [resolution, ho]
    rfl

set_option maxRecDepth 8192 in
/-- C6, witness: word "cat", one guess left, ann guesses `z`: the outcome is
exhausted, the counter reaches zero before the new round gives the budget back,
and bob and ann are both told that no guesses are left. -/
theorem round_outcome_of_new_guess_witness :
    last_chance.game.head = [bob] ++ ann :: []
      ∧ (last_chance.game.head.map (fun c => c.addr)).Nodup
      ∧ (last_chance.game.head.map (fun c => c.fd)).Nodup
      ∧ (some (strncpy "z".toList 30)).bind cstr = some ['z']
      ∧ last_chance.game.letters_guessed.getD ('z'.toNat - 97) 0 ≠ 1
      ∧ (after_guess last_chance.game [bob] [] ann 'z').guesses_left = 0
      ∧ round_outcome (after_guess last_chance.game [bob] [] ann 'z') = Outcome.exhausted
      ∧ turn_holder_input sample_config calm last_chance ann 1 (some (strncpy "z".toList 30))
          = some { last_chance with
              game := init_game sample_config calm (after_guess last_chance.game [bob] [] ann 'z'),
              out := last_chance.out ++ guess_writes sample_config calm last_chance.game [bob] [] ann 'z'
                ++ (to_all calm last_chance.game.head no_left
                  ++ round_start_writes sample_config calm
                      (after_guess last_chance.game [bob] [] ann 'z')
                      (next_holder last_chance.game.word [bob] [] ann 'z')) } :=
  ⟨rfl, by decide, by decide, by decide, by decide, rfl,
    (round_outcome_of_new_guess sample_config calm last_chance [bob] [] ann 'z'
      (some (strncpy "z".toList 30)) rfl (by decide) (by decide) rfl (by decide) (by decide)
      (by decide) (by decide) rfl rfl).2.2.2.1 (by decide) rfl⟩

/-! ## C7: a repeated guess -/

/-- The bytes that `read_partial_input_from_client` writes to `guess` for the
line `z`. -/
theorem cstr_sample : (some (strncpy "z".toList 30)).bind cstr = some ['z'] := by decide

set_option maxRecDepth 8192 in
/-- C7, counterexample: word "cat", one guess left.  Ann guesses `z`, which
exhausts the guesses, so a new round starts with a cleared guessed table.  Bob,
who now holds the turn, submits `z` again: it is handled as a new guess, the
counter goes from 4 to 3 and no "Already guessed" reply is written. -/
theorem repeated_guess_after_round_end :
    ∃ s1 s2,
      turn_holder_input sample_config calm last_chance ann 1 (some (strncpy "z".toList 30))
          = some s1
        ∧ turn_holder_input sample_config calm s1 bob 1 (some (strncpy "z".toList 30)) = some s2
        ∧ s1.game.guesses_left = 4 ∧ s2.game.guesses_left = 3
        ∧ ∀ x ∈ s2.out, x.msg ≠ "Already guessed. Your guess again?\r\n".toList :=
  ⟨_, _, rfl, rfl, rfl, rfl, by decide⟩

/-- A complete line that is one lowercase letter already marked guessed: the
reply is "Already guessed. Your guess again?" and the round is as before. -/
theorem turn_holder_already_guessed (cfg : Config) (w : World) (s : Server) (p : Client)
    (c : Char) (line : Option (List Char)) (hline : line.bind cstr = some [c])
    (h1 : 97 ≤ c.toNat) (h2 : c.toNat ≤ 122)
    (hm : s.game.letters_guessed.getD (c.toNat - 97) 0 = 1) :
    turn_holder_input cfg w s p 1 line
      = some { s with
          game := { s.game with
            head := (send_msg_to_client w (some p)
              "Already guessed. Your guess again?\r\n".toList s.game.head).1 },
          out := s.out ++ [⟨p.fd, "Already guessed. Your guess again?\r\n".toList,
            !w.wfail p.fd⟩] } := by
  unfold turn_holder_input
  rw [if_neg (by decide), if_neg (by decide), if_pos rfl]
  simp only [hline]
  have hv : ¬ ([c].length ≠ 1 ∨ ([c].headD NUL).toNat < 97 ∨ 122 < ([c].headD NUL).toNat) := by
    simp only [List.length_singleton, List.headD_cons, ne_eq, not_true_eq_false, false_or]
    omega
  rw [if_neg hv]
  simp only [List.headD_cons, if_pos hm, send_msg_to_client]
  cases w.wfail p.fd <;> simp

/-- After a guess of `c` that does not end the round, `c` is marked guessed. -/
theorem marked_after_first_guess (cfg : Config) (w : World) (s s1 : Server) (p : Client)
    (c : Char) (line : Option (List Char)) (hline : line.bind cstr = some [c])
    (h1 : 97 ≤ c.toNat) (h2 : c.toNat ≤ 122) (hl : 26 ≤ s.game.letters_guessed.length)
    (hround : s.game.letters_guessed.getD (c.toNat - 97) 0 = 1
      ∨ ∀ r, guess_letter cfg w s.game p c = some r → round_outcome r.1 = Outcome.continue)
    (hfirst : turn_holder_input cfg w s p 1 line = some s1) :
    s1.game.letters_guessed.getD (c.toNat - 97) 0 = 1 := by
  by_cases hm : s.game.letters_guessed.getD (c.toNat - 97) 0 = 1
  · rw [turn_holder_already_guessed cfg w s p c line hline h1 h2 hm] at hfirst
    cases hfirst
    exact hm
  · have hcont := hround.resolve_left hm
    unfold turn_holder_input at hfirst
    rw [if_neg (by decide), if_neg (by decide), if_pos rfl] at hfirst
    simp only [hline] at hfirst
    have hv : ¬ ([c].length ≠ 1 ∨ ([c].headD NUL).toNat < 97
        ∨ 122 < ([c].headD NUL).toNat) := by
      simp only [List.length_singleton, List.headD_cons, ne_eq, not_true_eq_false, false_or]
      omega
    rw [if_neg hv] at hfirst
    simp only [List.headD_cons, if_neg hm] at hfirst
    split at hfirst
    · exact Option.noConfusion hfirst
    · rename_i g o hg
      have ho := hcont (g, o) hg
      have hlg := (guess_letter_round cfg w s.game g p c o hg).2.2.1
      split at hfirst
      · exact Option.noConfusion hfirst
      · rename_i g1 o1 hr
        cases hfirst
        unfold resolve_round at hr
        simp only at ho
        rw [ho] at hr
        simp only at hr
        split at hr
        · exact Option.noConfusion hr
        · cases hr
          show g.letters_guessed.getD (c.toNat - 97) 0 = 1
          rw [hlg]
          have : c.toNat - 97 < s.game.letters_guessed.length := by omega
          simp [List.getElem?_set, this]

/-- C7, as amended: a session `p1` submits the lowercase letter `c` as the
turn-holder, and that submission does not end the round (the letter was guessed
already, or the outcome of the guess is to continue).  When the same letter is
then submitted by whoever holds the turn, the reply is "Already guessed. Your
guess again?" and the remaining-guess counter, the guessed table, the reveal
buffer, the word and the turn reference are unchanged. -/
theorem repeated_guess_already_guessed (cfg : Config) (w1 w2 : World) (s s1 : Server)
    (p1 p2 : Client) (c : Char) (line : Option (List Char))
    (hline : line.bind cstr = some [c])
    (h1 : 97 ≤ c.toNat) (h2 : c.toNat ≤ 122) (hl : 26 ≤ s.game.letters_guessed.length)
    (hround : s.game.letters_guessed.getD (c.toNat - 97) 0 = 1
      ∨ ∀ r, guess_letter cfg w1 s.game p1 c = some r → round_outcome r.1 = Outcome.continue)
    (hfirst : turn_holder_input cfg w1 s p1 1 line = some s1) :
    ∃ s2, turn_holder_input cfg w2 s1 p2 1 line = some s2
      ∧ s2.out = s1.out ++ [⟨p2.fd, "Already guessed. Your guess again?\r\n".toList,
          !w2.wfail p2.fd⟩]
      ∧ s2.game.guesses_left = s1.game.guesses_left
      ∧ s2.game.letters_guessed = s1.game.letters_guessed
      ∧ s2.game.guess = s1.game.guess
      ∧ s2.game.word = s1.game.word
      ∧ s2.game.has_next_turn = s1.game.has_next_turn :=
  ⟨_, turn_holder_already_guessed cfg w2 s1 p2 c line hline h1 h2
      (marked_after_first_guess cfg w1 s s1 p1 c line hline h1 h2 hl hround hfirst),
    rfl, rfl, rfl, rfl, rfl, rfl⟩

set_option maxRecDepth 8192 in
/-- C7, witness: in the round of "cat" with four guesses, ann guesses `z`; the
round continues with bob, whose `z` is answered "Already guessed". -/
theorem repeated_guess_already_guessed_witness :
    (some (strncpy "z".toList 30)).bind cstr = some ['z']
      ∧ 26 ≤ (cat_server [bob, ann] (some 1000)).game.letters_guessed.length
      ∧ ∃ s1, turn_holder_input sample_config calm (cat_server [bob, ann] (some 1000)) ann 1
            (some (strncpy "z".toList 30)) = some s1
        ∧ s1.game.guesses_left = 3
        ∧ ∃ s2, turn_holder_input sample_config calm s1 bob 1 (some (strncpy "z".toList 30))
              = some s2
          ∧ s2.out = s1.out ++ [⟨bob.fd, "Already guessed. Your guess again?\r\n".toList,
              !calm.wfail bob.fd⟩]
          ∧ s2.game.guesses_left = s1.game.guesses_left
          ∧ s2.game.letters_guessed = s1.game.letters_guessed
          ∧ s2.game.guess = s1.game.guess
          ∧ s2.game.word = s1.game.word
          ∧ s2.game.has_next_turn = s1.game.has_next_turn :=
  ⟨cstr_sample, by decide, _, rfl, rfl,
    repeated_guess_already_guessed sample_config calm calm (cat_server [bob, ann] (some 1000)) _
      ann bob 'z' (some (strncpy "z".toList 30)) cstr_sample (by decide) (by decide) (by decide)
      (Or.inr (fun r hr => by
        have e : guess_letter sample_config calm (cat_server [bob, ann] (some 1000)).game ann 'z'
            = some (after_guess (cat_server [bob, ann] (some 1000)).game [bob] [] ann 'z',
                guess_writes sample_config calm (cat_server [bob, ann] (some 1000)).game
                  [bob] [] ann 'z') :=
          guess_letter_eq sample_config calm _ [bob] [] ann 'z' rfl (by decide) rfl rfl
        rw [e] at hr
        cases hr
        rfl))
      rfl⟩

/-! ## C8: the turn after a guess -/

set_option maxRecDepth 8192 in
/-- C8, counterexample: word "cat", one guess left, ann (address 1000) holds the
turn and guesses the absent letter `z`.  The guess ends the round by exhaustion,
and the turn reference afterwards is bob (address 1001), not the session that
made the round-ending guess. -/
theorem turn_moves_on_when_absent_letter_ends_round :
    round_outcome (after_guess last_chance.game [bob] [] ann 'z') = Outcome.exhausted
      ∧ last_chance.game.has_next_turn = some ann.addr
      ∧ ∃ s1, turn_holder_input sample_config calm last_chance ann 1
            (some (strncpy "z".toList 30)) = some s1
          ∧ s1.game.has_next_turn = some bob.addr
          ∧ s1.game.has_next_turn ≠ some ann.addr :=
  ⟨rfl, rfl, _, rfl, rfl, by decide⟩

/-- The function `init_game` leaves the turn reference and the group as they
are. -/
theorem resolution_turn (cfg : Config) (w : World) (game : GameState) (p q : Client) :
    (resolution cfg w game p q).1.has_next_turn = game.has_next_turn
      ∧ (resolution cfg w game p q).1.head = game.head := by
  unfold resolution
  cases round_outcome game <;> exact ⟨rfl, rfl⟩

/-- C8, as amended: after a new valid letter guess by the turn-holder `p`, the
turn reference is still `p` if the letter occurs in the target word, and it is
the cyclic successor of `p` in the active group if the letter is absent, whether
the round continues or ends: the turn moves before the round is resolved, and
starting the next round leaves the turn reference untouched. -/
theorem turn_after_guess (cfg : Config) (w : World) (s : Server)
    (pre post : List Client) (p : Client) (c : Char) (line : Option (List Char))
    (h : s.game.head = pre ++ p :: post)
    (hnd : (s.game.head.map (fun c => c.addr)).Nodup)
    (hfd : (s.game.head.map (fun c => c.fd)).Nodup)
    (ht : s.game.has_next_turn = some p.addr)
    (hline : line.bind cstr = some [c])
    (h1 : 97 ≤ c.toNat) (h2 : c.toNat ≤ 122)
    (hnew : s.game.letters_guessed.getD (c.toNat - 97) 0 ≠ 1)
    (hwp : w.wfail p.fd = false)
    (hwq : w.wfail (next_holder s.game.word pre post p c).fd = false) :
    ∃ s1, turn_holder_input cfg w s p 1 line = some s1
      ∧ s1.game.head = s.game.head
      ∧ (c ∈ s.game.word → s1.game.has_next_turn = some p.addr)
      ∧ (c ∉ s.game.word → s1.game.has_next_turn = some (successor pre post p).addr)
      ∧ (round_outcome (after_guess s.game pre post p c) ≠ Outcome.continue →
          s1.game = init_game cfg w (after_guess s.game pre post p c)
          ∧ (init_game cfg w (after_guess s.game pre post p c)).has_next_turn
              = (after_guess s.game pre post p c).has_next_turn) := by
  refine ⟨_, turn_holder_guess_eq cfg w s pre post p c line h hnd hfd ht hline h1 h2 hnew
    hwp hwq, ?_, ?_, ?_, ?_⟩
  · exact (resolution_turn cfg w _ p _).2
  · intro hc
    show (resolution cfg w _ p _).1.has_next_turn = _
    rw [(resolution_turn cfg w _ p _).1]
    simp [after_guess, next_holder, hc]
  · intro hc
    show (resolution cfg w _ p _).1.has_next_turn = _
    rw [(resolution_turn cfg w _ p _).1]
    simp [after_guess, next_holder, hc]
  · intro ho
    refine ⟨?_, rfl⟩
    show (resolution cfg w _ p _).1 = _
    unfold resolution
    cases hro : round_outcome (after_guess s.game pre post p c) with
    | win => rfl
    | exhausted => rfl
    | «continue» => exact absurd hro ho

set_option maxRecDepth 8192 in
/-- C8, witness: in the round of "cat" with four guesses, ann holds the turn and
guesses the absent letter `z`; the round continues and the turn is bob's. -/
theorem turn_after_guess_witness :
    (cat_server [bob, ann] (some 1000)).game.head = [bob] ++ ann :: []
      ∧ 'z' ∉ (cat_server [bob, ann] (some 1000)).game.word
      ∧ ∃ s1, turn_holder_input sample_config calm (cat_server [bob, ann] (some 1000)) ann 1
            (some (strncpy "z".toList 30)) = some s1
          ∧ s1.game.head = (cat_server [bob, ann] (some 1000)).game.head
          ∧ ('z' ∈ (cat_server [bob, ann] (some 1000)).game.word →
              s1.game.has_next_turn = some ann.addr)
          ∧ ('z' ∉ (cat_server [bob, ann] (some 1000)).game.word →
              s1.game.has_next_turn = some (successor [bob] [] ann).addr)
          ∧ (round_outcome (after_guess (cat_server [bob, ann] (some 1000)).game [bob] [] ann 'z')
                ≠ Outcome.continue →
              s1.game = init_game sample_config calm
                  (after_guess (cat_server [bob, ann] (some 1000)).game [bob] [] ann 'z')
              ∧ (init_game sample_config calm
                  (after_guess (cat_server [bob, ann] (some 1000)).game [bob] [] ann 'z')).has_next_turn
                  = (after_guess (cat_server [bob, ann] (some 1000)).game [bob] [] ann
                      'z').has_next_turn) :=
  ⟨rfl, by decide,
    turn_after_guess sample_config calm (cat_server [bob, ann] (some 1000)) [bob] [] ann 'z'
      (some (strncpy "z".toList 30)) rfl (by decide) (by decide) rfl cstr_sample (by decide)
      (by decide) (by decide) rfl rfl⟩

/-! ## C9: broadcast -/

/-- The function `broadcast` attempts exactly one write of the message to every
active session whose descriptor is not the excluded one, in list order, whether
or not earlier writes fail. -/
theorem broadcast_writes_once (w : World) (game : GameState) (outbuf : List Char)
    (special : Option Nat) :
    broadcast w game outbuf special
      = to_all w (game.head.filter (fun c => decide (special ≠ some c.fd))) outbuf := by
  simp only [broadcast, broadcast_go_eq, to_all]

set_option maxRecDepth 8192 in
/-- C9 (the code departs from the claim): the active group is cyd, bob, ann and
writes to bob (descriptor 5) fail.  A broadcast to everyone writes once to each
of the three, bob included, and ann's guess of `c`, which is broadcast to
everyone, leaves bob in the active group: the failed recipient is not removed. -/
theorem broadcast_keeps_failed_recipient :
    broadcast (broken 5) (cat_game [cyd, bob, ann] (some 1000)) "hello\r\n".toList none
        = [⟨6, "hello\r\n".toList, true⟩, ⟨5, "hello\r\n".toList, false⟩,
           ⟨4, "hello\r\n".toList, true⟩]
      ∧ ∃ s1, turn_holder_input sample_config (broken 5)
            (cat_server [cyd, bob, ann] (some 1000)) ann 1 (some (strncpy "c".toList 30))
            = some s1
          ∧ (⟨5, "ann guesses: c\r\n".toList, false⟩ : Sent) ∈ s1.out
          ∧ s1.game.head = [cyd, bob, ann] :=
  ⟨rfl, _, rfl, by decide, rfl⟩

/-! ## C10: a duplicate name -/

theorem peek_nat (stray : Char) (buf : List Char) (n : Nat) :
    peek stray buf (n : Int) = buf.getD n NUL := by
  unfold peek
  rw [if_neg (by omega)]
  simp

theorem poke_nat (buf : List Char) (n : Nat) (c : Char) :
    poke buf (n : Int) c = buf.set n c := by
  unfold poke
  rw [if_neg (by omega)]
  simp

theorem store_append (acc tail ch : List Char) :
    store (acc ++ tail) acc.length ch = (acc ++ ch) ++ tail.drop ch.length := by
  unfold store
  simp [List.take_append_eq_append_take, List.drop_append_eq_append_drop]

theorem getD_append_left (a b : List Char) (i : Nat) (h : i < a.length) :
    (a ++ b).getD i NUL = a.getD i NUL := by
  simp [List.getElem?_append_left h]

/-- Inside the accumulated bytes, the buffer holds the bytes of the line. -/
theorem getD_within_line (acc rest tail full : List Char) (h : acc ++ rest = full) (i : Nat)
    (hi : i < acc.length) : (acc ++ tail).getD i NUL = full.getD i NUL := by
  rw [← h, getD_append_left _ _ _ hi, getD_append_left _ _ _ hi]

/-- No byte of the line before its last one is a line feed. -/
theorem line_no_LF (content : List Char) (hlf : LF ∉ content) (i : Nat)
    (hi : i ≤ content.length) : (content ++ CRLF).getD i NUL ≠ LF := by
  rcases Nat.lt_or_ge i content.length with h | h
  · rw [getD_append_left _ _ _ h]
    intro e
    apply hlf
    rw [← e]
    simp only [List.getD_eq_getElem?_getD, List.getElem?_eq_getElem h, Option.getD_some]
    exact List.getElem_mem _
  · have : i = content.length := by omega
    subst this
    have e : (content ++ CRLF).getD content.length NUL = CR := by
      rw [List.getD_eq_getElem?_getD, List.getElem?_append_right (Nat.le_refl _), Nat.sub_self]
      rfl
    rw [e]
    decide

theorem line_first (content : List Char) (hne : content ≠ []) (hcr : CR ∉ content) :
    (content ++ CRLF).getD 0 NUL ≠ CR := by
  cases content with
  | nil => exact absurd rfl hne
  | cons x rest =>
    intro e
    apply hcr
    simp at e
    simp [e]

/-- A read that leaves the line incomplete: the bytes are appended, the cursor
advances, and the call returns 2. -/
theorem read_partial_more (cfg : Config) (stray : Char) (p : Client)
    (acc tail ch rest content : List Char)
    (hne : content ≠ []) (hcr : CR ∉ content) (hlf : LF ∉ content)
    (hfit : content.length + 2 ≤ cfg.MAX_BUF)
    (hbuf : p.inbuf = acc ++ tail) (hlen : p.inbuf.length = cfg.MAX_BUF)
    (hptr : p.in_ptr = acc.length)
    (hsplit : (acc ++ ch) ++ rest = content ++ CRLF) (hch : ch ≠ []) (hrest : rest ≠ []) :
    read_partial_input_from_client cfg stray p ch
      = some ⟨2, { p with inbuf := (acc ++ ch) ++ tail.drop ch.length,
                          in_ptr := (acc ++ ch).length }, none⟩ := by
  have hl := congrArg List.length hsplit
  simp only [List.length_append, CRLF, List.length_cons, List.length_nil] at hl
  have hchl : 0 < ch.length := List.length_pos.mpr hch
  have hrl : 0 < rest.length := List.length_pos.mpr hrest
  have hstore : store p.inbuf p.in_ptr ch = (acc ++ ch) ++ tail.drop ch.length := by
    rw [hbuf, hptr, store_append]
  have hpos : 0 < (acc ++ ch).length := by rw [List.length_append]; omega
  have c4 : ¬ (((acc ++ ch) ++ tail.drop ch.length).getD 0 NUL = CR
      ∧ ((acc ++ ch) ++ tail.drop ch.length).getD 1 NUL = LF) := by
    rintro ⟨e, _⟩
    rw [getD_within_line _ _ _ _ hsplit 0 hpos] at e
    exact line_first content hne hcr e
  have hidx : ((p.in_ptr : Int) + (ch.length : Int) - 1)
      = (((acc ++ ch).length - 1 : Nat) : Int) := by
    rw [hptr, List.length_append]; omega
  have c5 : ¬ (peek stray ((acc ++ ch) ++ tail.drop ch.length)
        ((p.in_ptr : Int) + (ch.length : Int) - 2) = CR
      ∧ peek stray ((acc ++ ch) ++ tail.drop ch.length)
        ((p.in_ptr : Int) + (ch.length : Int) - 1) = LF) := by
    rintro ⟨_, e⟩
    rw [hidx, peek_nat, getD_within_line _ _ _ _ hsplit _ (by omega)] at e
    exact line_no_LF content hlf _ (by rw [List.length_append]; omega) e
  unfold read_partial_input_from_client
  simp only [hstore]
  rw [if_neg (by omega), if_neg (by rw [hptr]; omega), if_neg (by omega), if_neg c4, if_neg c5]
  rw [hptr, List.length_append]

/-- The read that completes the line: the call returns 1, the bytes written to
`result` are the content padded with end markers, and the cursor is back at the
buffer start. -/
theorem read_partial_done (cfg : Config) (stray : Char) (p : Client)
    (acc tail ch content : List Char)
    (hne : content ≠ []) (hcr : CR ∉ content) (hnul : NUL ∉ content)
    (hname : content.length < cfg.MAX_NAME)
    (hfit : content.length + 2 ≤ cfg.MAX_BUF)
    (hbuf : p.inbuf = acc ++ tail) (hlen : p.inbuf.length = cfg.MAX_BUF)
    (hptr : p.in_ptr = acc.length)
    (hsplit : acc ++ ch = content ++ CRLF) (hch : ch ≠ []) :
    ∃ r, read_partial_input_from_client cfg stray p ch = some r
      ∧ r.res = 1
      ∧ r.result = some (content ++ List.replicate (cfg.MAX_NAME - content.length) NUL)
      ∧ r.client.in_ptr = 0 := by
  have hl := congrArg List.length hsplit
  simp only [List.length_append, CRLF, List.length_cons, List.length_nil] at hl
  have hchl : 0 < ch.length := List.length_pos.mpr hch
  have hcl : 0 < content.length := List.length_pos.mpr hne
  have hstore : store p.inbuf p.in_ptr ch = (content ++ CRLF) ++ tail.drop ch.length := by
    rw [hbuf, hptr, store_append, hsplit]
  have c4 : ¬ (((content ++ CRLF) ++ tail.drop ch.length).getD 0 NUL = CR
      ∧ ((content ++ CRLF) ++ tail.drop ch.length).getD 1 NUL = LF) := by
    rintro ⟨e, _⟩
    rw [getD_append_left _ _ 0 (by rw [List.length_append]; omega)] at e
    exact line_first content hne hcr e
  have hidx2 : ((p.in_ptr : Int) + (ch.length : Int) - 2) = ((content.length : Nat) : Int) := by
    rw [hptr]; omega
  have hidx1 : ((p.in_ptr : Int) + (ch.length : Int) - 1)
      = ((content.length + 1 : Nat) : Int) := by
    rw [hptr]; omega
  have g2 : ((content ++ CRLF) ++ tail.drop ch.length).getD content.length NUL = CR := by
    rw [List.append_assoc, List.getD_eq_getElem?_getD,
      List.getElem?_append_right (Nat.le_refl _), Nat.sub_self]
    rfl
  have g1 : ((content ++ CRLF) ++ tail.drop ch.length).getD (content.length + 1) NUL = LF := by
    have e : content.length + 1 - content.length = 1 := by omega
    rw [List.append_assoc, List.getD_eq_getElem?_getD,
      List.getElem?_append_right (Nat.le_succ _), e]
    simp [CRLF]
  have c5 : peek stray ((content ++ CRLF) ++ tail.drop ch.length)
        ((p.in_ptr : Int) + (ch.length : Int) - 2) = CR
      ∧ peek stray ((content ++ CRLF) ++ tail.drop ch.length)
        ((p.in_ptr : Int) + (ch.length : Int) - 1) = LF := by
    rw [hidx2, hidx1, peek_nat, peek_nat]
    exact ⟨g2, g1⟩
  have hset : (((content ++ CRLF) ++ tail.drop ch.length).set content.length NUL)
      = content ++ (NUL :: LF :: tail.drop ch.length) := by
    rw [List.append_assoc, List.set_append_right _ _ (Nat.le_refl _), Nat.sub_self]
    rfl
  have htw : (content ++ (NUL :: LF :: tail.drop ch.length)).takeWhile (fun c => c != NUL)
      = content := by
    rw [List.takeWhile_append_of_pos]
    · simp [List.takeWhile]
    · intro x hx
      have : x ≠ NUL := fun e => hnul (e ▸ hx)
      simpa using this
  have hread : read_partial_input_from_client cfg stray p ch
      = some ⟨1, { p with inbuf := content ++ (NUL :: LF :: tail.drop ch.length), in_ptr := 0 },
          some (strncpy (content ++ (NUL :: LF :: tail.drop ch.length)) cfg.MAX_NAME)⟩ := by
    unfold read_partial_input_from_client
    simp only [hstore]
    rw [if_neg (by omega), if_neg (by rw [hptr]; omega), if_neg (by omega), if_neg c4,
      if_pos c5, hidx2, poke_nat, hset]
  refine ⟨_, hread, rfl, ?_, rfl⟩
  simp only [strncpy, htw]
  rw [List.take_of_length_le (by omega)]

/-- The calls on the pieces of a line, from a buffer that holds the bytes `acc`
read so far. -/
theorem read_chunks_acc (cfg : Config) (stray : Char) (content : List Char)
    (hne : content ≠ []) (hcr : CR ∉ content) (hlf : LF ∉ content) (hnul : NUL ∉ content)
    (hname : content.length < cfg.MAX_NAME) (hfit : content.length + 2 ≤ cfg.MAX_BUF)
    (chunks : List (List Char)) (acc tail : List Char) (p : Client)
    (hbuf : p.inbuf = acc ++ tail) (hlen : p.inbuf.length = cfg.MAX_BUF)
    (hptr : p.in_ptr = acc.length)
    (hsplit : acc ++ chunks.flatten = content ++ CRLF)
    (hch : ∀ ch ∈ chunks, ch ≠ []) (hchunks : chunks ≠ []) :
    ∃ rs last, read_chunks cfg stray p chunks = some (rs ++ [last])
      ∧ rs.length + 1 = chunks.length
      ∧ (∀ r ∈ rs, r.res = 2 ∧ r.result = none)
      ∧ last.res = 1
      ∧ last.result = some (content ++ List.replicate (cfg.MAX_NAME - content.length) NUL)
      ∧ last.client.in_ptr = 0 := by
  induction chunks generalizing acc tail p with
  | nil => exact absurd rfl hchunks
  | cons ch rest ih =>
    have hchne : ch ≠ [] := hch ch (List.mem_cons_self _ _)
    by_cases hrest : rest = []
    · subst hrest
      simp only [List.flatten_cons, List.flatten_nil, List.append_nil] at hsplit
      obtain ⟨r, hr, h1, h2, h3⟩ := read_partial_done cfg stray p acc tail ch content hne hcr
        hnul hname hfit hbuf hlen hptr hsplit hchne
      refine ⟨[], r, ?_, rfl, ?_, h1, h2, h3⟩
      · simp [read_chunks, hr]
      · intro x hx
        exact absurd hx (List.not_mem_nil x)
    · have hjoin : rest.flatten ≠ [] := by
        cases rest with
        | nil => exact absurd rfl hrest
        | cons c rest1 =>
          have hc : c ≠ [] := hch c (by simp)
          intro e
          rw [List.flatten_cons] at e
          exact hc (List.append_eq_nil.mp e).1
      have hsplit1 : (acc ++ ch) ++ rest.flatten = content ++ CRLF := by
        rw [List.append_assoc, ← List.flatten_cons]
        exact hsplit
      have hr := read_partial_more cfg stray p acc tail ch rest.flatten content hne hcr hlf hfit
        hbuf hlen hptr hsplit1 hchne hjoin
      have hl := congrArg List.length hsplit1
      simp only [List.length_append, CRLF, List.length_cons, List.length_nil] at hl
      have hlen0 : acc.length + tail.length = cfg.MAX_BUF := by
        rw [← hlen, hbuf, List.length_append]
      obtain ⟨rs, last, hrun, hcount, hrs, h1, h2, h3⟩ := ih (acc ++ ch) (tail.drop ch.length)
        { p with inbuf := (acc ++ ch) ++ tail.drop ch.length, in_ptr := (acc ++ ch).length }
        rfl (by simp only [List.length_append, List.length_drop]; omega) rfl hsplit1
        (fun c hc => hch c (List.mem_cons_of_mem _ hc)) hrest
      refine ⟨ReadOut.mk 2 (Client.mk p.addr p.fd p.name ((acc ++ ch) ++ tail.drop ch.length)
        (acc ++ ch).length) none :: rs, last, ?_, ?_, ?_, h1, h2, h3⟩
      · rw [read_chunks, hr]
        simp only [hrun, List.cons_append]
      · simp only [List.length_cons]; omega
      · intro x hx
        rcases List.mem_cons.mp hx with e | e
        · rw [e]; exact ⟨rfl, rfl⟩
        · exact hrs x e

set_option maxRecDepth 8192 in
/-- C2, counterexample, with `MAX_BUF = 256` and `MAX_NAME = 30`: a line of 31
letters `a` arrives in one piece on a session whose cursor is at the buffer
start.  The call returns 1, but `strncpy` writes only the first 30 letters to
`result`, without an end marker, so the result is not the content.  And the
line `a`, end marker, `b` gives the result `a`. -/
theorem long_line_is_cut :
    (List.replicate 31 'a' ≠ [] ∧ CR ∉ List.replicate 31 'a' ∧ LF ∉ List.replicate 31 'a'
        ∧ (List.replicate 31 'a' ++ CRLF).length ≤ sample_config.MAX_BUF
        ∧ newcomer.in_ptr = 0
        ∧ ∃ r, read_chunks sample_config NUL newcomer [List.replicate 31 'a' ++ CRLF] = some [r]
            ∧ r.res = 1
            ∧ r.result = some (List.replicate 30 'a')
            ∧ r.result.bind cstr ≠ some (List.replicate 31 'a'))
      ∧ (CR ∉ ['a', NUL, 'b'] ∧ LF ∉ ['a', NUL, 'b']
        ∧ ∃ r, read_chunks sample_config NUL newcomer [['a', NUL, 'b'] ++ CRLF] = some [r]
            ∧ r.res = 1
            ∧ r.result.bind cstr = some ['a']
            ∧ r.result.bind cstr ≠ some ['a', NUL, 'b']) :=
  ⟨⟨by decide, by decide, by decide, by decide, rfl, _, rfl, rfl, rfl, by decide⟩,
    by decide, by decide, _, rfl, rfl, rfl, by decide⟩

/-- C2, as amended: the content of a line is not empty, holds no carriage
return, line feed or string end marker and is shorter than `MAX_NAME`.  The
content followed by the terminator is cut into non-empty chunks, the whole
fitting the input buffer, and `read_partial_input_from_client` is called once
per chunk on a session whose cursor is at the buffer start.  Every call before
the last returns 2 and writes no result, the last returns 1, the bytes it writes
to `result` are the content padded with end markers to `MAX_NAME` bytes, which
read as the content, and the cursor is back at the buffer start. -/
theorem line_reassembly (cfg : Config) (stray : Char) (p : Client) (content : List Char)
    (chunks : List (List Char))
    (hne : content ≠ []) (hcr : CR ∉ content) (hlf : LF ∉ content) (hnul : NUL ∉ content)
    (hname : content.length < cfg.MAX_NAME)
    (hsplit : chunks.flatten = content ++ CRLF) (hch : ∀ ch ∈ chunks, ch ≠ [])
    (hfit : (content ++ CRLF).length ≤ cfg.MAX_BUF)
    (hlen : p.inbuf.length = cfg.MAX_BUF) (hptr : p.in_ptr = 0) :
    ∃ rs last, read_chunks cfg stray p chunks = some (rs ++ [last])
      ∧ rs.length + 1 = chunks.length
      ∧ (∀ r ∈ rs, r.res = 2 ∧ r.result = none)
      ∧ last.res = 1
      ∧ last.result = some (content ++ List.replicate (cfg.MAX_NAME - content.length) NUL)
      ∧ last.result.bind cstr = some content
      ∧ last.client.in_ptr = 0 := by
  have hfit1 : content.length + 2 ≤ cfg.MAX_BUF := by
    simpa [CRLF] using hfit
  have hchunks : chunks ≠ [] := by
    intro e
    rw [e] at hsplit
    have := congrArg List.length hsplit
    simp [CRLF] at this
  obtain ⟨rs, last, h1, h2, h3, h4, h5, h6⟩ := read_chunks_acc cfg stray content hne hcr hlf hnul
    hname hfit1 chunks [] p.inbuf p rfl hlen hptr hsplit hch hchunks
  refine ⟨rs, last, h1, h2, h3, h4, h5, ?_, h6⟩
  rw [h5]
  have hmem : NUL ∈ content ++ List.replicate (cfg.MAX_NAME - content.length) NUL := by
    apply List.mem_append_right
    rw [List.mem_replicate]
    exact ⟨by omega, rfl⟩
  have hrep : ∀ n, (List.replicate n NUL).takeWhile (fun c => c != NUL) = [] := by
    intro n
    cases n with
    | zero => rfl
    | succ n => simp [List.replicate_succ, List.takeWhile]
  have htw : (content ++ List.replicate (cfg.MAX_NAME - content.length) NUL).takeWhile
      (fun c => c != NUL) = content := by
    rw [List.takeWhile_append_of_pos]
    · rw [hrep, List.append_nil]
    · intro x hx
      have : x ≠ NUL := fun e => hnul (e ▸ hx)
      simpa using this
  simp only [Option.some_bind, cstr, if_pos hmem, htw]

set_option maxRecDepth 8192 in
/-- C2, witness: the line "ann" arrives as `a`, then `nn` with the carriage
return, then the line feed. -/
theorem line_reassembly_witness :
    "ann".toList ≠ [] ∧ CR ∉ "ann".toList ∧ LF ∉ "ann".toList ∧ NUL ∉ "ann".toList
      ∧ "ann".toList.length < sample_config.MAX_NAME
      ∧ ["a".toList, "nn\r".toList, "\n".toList].flatten = "ann".toList ++ CRLF
      ∧ (∀ ch ∈ ["a".toList, "nn\r".toList, "\n".toList], ch ≠ [])
      ∧ ("ann".toList ++ CRLF).length ≤ sample_config.MAX_BUF
      ∧ newcomer.inbuf.length = sample_config.MAX_BUF
      ∧ ∃ rs last, read_chunks sample_config NUL newcomer
            ["a".toList, "nn\r".toList, "\n".toList] = some (rs ++ [last])
          ∧ rs.length + 1 = ["a".toList, "nn\r".toList, "\n".toList].length
          ∧ (∀ r ∈ rs, r.res = 2 ∧ r.result = none)
          ∧ last.res = 1
          ∧ last.result = some ("ann".toList
              ++ List.replicate (sample_config.MAX_NAME - "ann".toList.length) NUL)
          ∧ last.result.bind cstr = some "ann".toList
          ∧ last.client.in_ptr = 0 :=
  ⟨by decide, by decide, by decide, by decide, by decide, by decide, by decide, by decide,
    by decide,
    line_reassembly sample_config NUL newcomer "ann".toList
      ["a".toList, "nn\r".toList, "\n".toList] (by decide) (by decide) (by decide) (by decide)
      (by decide) (by decide) (by decide) (by decide) (by decide) rfl⟩

/-! ## C11: a malformed guess -/

/-- A line without end marker that is shorter than `n` is copied out whole by
`strncpy`, with an end marker after it: the handler reads it as it was sent. -/
theorem cstr_strncpy_short (content rest : List Char) (n : Nat) (hnul : NUL ∉ content)
    (hn : content.length < n) :
    (some (strncpy (content ++ NUL :: rest) n)).bind cstr = some content := by
  have htw : (content ++ NUL :: rest).takeWhile (fun c => c != NUL) = content := by
    rw [List.takeWhile_append_of_pos]
    · simp [List.takeWhile]
    · intro x hx
      have : x ≠ NUL := fun e => hnul (e ▸ hx)
      simpa using this
  have hmem : NUL ∈ content ++ List.replicate (n - content.length) NUL := by
    apply List.mem_append_right
    rw [List.mem_replicate]
    exact ⟨by omega, rfl⟩
  have hrep : ∀ k, (List.replicate k NUL).takeWhile (fun c => c != NUL) = [] := by
    intro k
    cases k with
    | zero => rfl
    | succ k => simp [List.replicate_succ, List.takeWhile]
  have htw2 : (content ++ List.replicate (n - content.length) NUL).takeWhile
      (fun c => c != NUL) = content := by
    rw [List.takeWhile_append_of_pos]
    · rw [hrep, List.append_nil]
    · intro x hx
      have : x ≠ NUL := fun e => hnul (e ▸ hx)
      simpa using this
  simp only [strncpy, htw, List.take_of_length_le (Nat.le_of_lt hn), Option.some_bind, cstr,
    if_pos hmem, htw2]

/-- Once the cursor has left the buffer start, the read requests bytes up to an
offset past the `MAX_BUF` bytes of the buffer. -/
theorem requested_end_past_buffer (cfg : Config) (p : Client) (h : 0 < p.in_ptr) :
    cfg.MAX_BUF < requested_end cfg p := by
  unfold requested_end
  omega

/-- A read that does not complete a line and fits the buffer is stored and moves
the cursor on by its length: nothing in the function compares the cursor with
the size of the buffer. -/
theorem read_partial_cursor (cfg : Config) (stray : Char) (p : Client) (data : List Char)
    (r : ReadOut) (h : read_partial_input_from_client cfg stray p data = some r)
    (h2 : r.res = 2) : r.client.in_ptr = p.in_ptr + data.length := by
  unfold read_partial_input_from_client at h
  simp only at h
  split at h
  · exact Option.noConfusion h
  · split at h
    · exact Option.noConfusion h
    · split at h
      · cases h
        exact absurd (show (-1 : Int) = 2 from h2) (by decide)
      · split at h
        · cases h
          exact absurd (show (0 : Int) = 2 from h2) (by decide)
        · split at h
          · cases h
            exact absurd (show (1 : Int) = 2 from h2) (by decide)
          · cases h; rfl

set_option maxRecDepth 8192 in
/-- C12 (the code departs from the claim), with `MAX_BUF = 256`: a session whose
cursor is at the buffer start receives the byte `a`.  The call returns 2 and the
cursor is at offset 1, so the next call requests bytes up to offset 257 of a
buffer of 256 bytes; when the transport delivers 256 bytes, they are stored past
the end of the buffer.  And after 256 bytes without terminator the cursor is at
the end of the buffer, nothing has been rejected, and one more byte is stored
past the end. -/
theorem read_requests_past_buffer_end :
    (∃ r, read_partial_input_from_client sample_config NUL newcomer "a".toList = some r
        ∧ r.res = 2
        ∧ r.client.in_ptr = 1
        ∧ r.client.inbuf.length = sample_config.MAX_BUF
        ∧ requested_end sample_config r.client = 257
        ∧ sample_config.MAX_BUF < requested_end sample_config r.client
        ∧ sample_config.MAX_BUF < r.client.in_ptr + (List.replicate 256 'b').length
        ∧ read_partial_input_from_client sample_config NUL r.client (List.replicate 256 'b')
            = none)
      ∧ (∃ r, read_partial_input_from_client sample_config NUL newcomer (List.replicate 256 'a')
            = some r
        ∧ r.res = 2
        ∧ r.client.in_ptr = sample_config.MAX_BUF
        ∧ read_partial_input_from_client sample_config NUL r.client ['b'] = none) :=
  ⟨⟨_, rfl, rfl, rfl, rfl, rfl, by decide, by decide, rfl⟩, _, rfl, rfl, rfl, rfl⟩

/-! ## The line assembler at the buffer start -/

set_option maxRecDepth 8192 in
/-- A read of the single byte line feed at the buffer start, when the byte before
the buffer is a carriage return: the test of line 484 reads that byte, the end
marker of line 485 is stored on it, outside the buffer, and the result copied
out starts with the line feed. -/
theorem read_line_feed_after_stray_return :
    ∃ r, read_partial_input_from_client sample_config CR newcomer [LF] = some r
      ∧ r.res = 1
      ∧ r.client.inbuf = LF :: List.replicate 255 NUL
      ∧ r.result = some (LF :: List.replicate 29 NUL) :=
  ⟨_, rfl, rfl, rfl, rfl⟩

end Wordsrv
